import Mathlib

/-!
Signal dispatch registry (`CrabySignals.h`)

A shallow embedding of `craby::reactnative::signals::SignalManager` and proofs of its
register / unregister / emit contract.

Modelling decisions, each taken from the source:

* `delegates_` is a `std::unordered_map<uintptr_t, Delegate>`. It is embedded as an association
  list together with the three container operations the class uses (`find`, `insert_or_assign`,
  `erase`), written after the container's standard contract. Uniqueness of keys is *not* built
  into the type; it is proved as an invariant of the reachable states.
* A `Delegate` is a `std::function<void(const std::string&)>`: an effectful procedure that may
  throw. It is embedded as a function on the program state outside the registry, returning the
  state it leaves behind together with either a normal return or the exception thrown.
* Every member function starts with `std::lock_guard<std::mutex> lock(mutex_)`. The semantics
  below is the sequential one: a call runs to completion before the next one starts and handlers
  act on the outside state only, so the guard always acquires a free mutex and frees it again on
  exit. The mutex therefore carries no information between calls and is not part of the state.
  A second, lock-level model (`Machine`, `lock_guard`, `exec`) keeps `mutex_` in the state and
  lets handler bodies call the registry; on a free mutex and handlers that do not call back it
  agrees with the first (`exec_emit_ofManager` and its two companions).
* Several threads are the subject of a third model (`Micro`, `System`, `step`, `runSched`): a
  member function is a sequence of steps (guard constructor, container operation, handler
  instructions, guard destructor) and a schedule interleaves the steps of the threads. Only the
  guard constructor reads `mutex_`; that calls do not overlap is proved (`inv_step`), not
  assumed, and `unguarded_access_races` shows what happens to container operations that run
  without the guard.
* Identifiers are `uintptr_t`. The class never does arithmetic on them, only equality tests
  inside the container, so they are embedded as natural numbers.
-/

namespace craby.reactnative.signals

/-- Identifiers have the C++ type `uintptr_t`; the registry only compares them. -/
abbrev uintptr_t := Nat

/-- `using Delegate = std::function<void(const std::string& signalName)>`.
A call receives the signal name and the state `σ` outside the registry; it yields the state it
leaves behind and either returns normally or throws an exception of type `ε`. (An empty
`std::function` is the delegate that throws `std::bad_function_call` on every call.) -/
abbrev Delegate (σ ε : Type) := String → σ → Except ε Unit × σ

/-! ## The container: `std::unordered_map<uintptr_t, Delegate>` -/

namespace unordered_map

/-- `m.find(id)`: the mapped value of the element whose key equals `id`;
`none` stands for the past-the-end iterator `m.end()`. -/
def find {δ : Type} : List (uintptr_t × δ) → uintptr_t → Option δ
  | [], _ => none
  | (k, v) :: rest, id => if k = id then some v else find rest id

/-- `m.insert_or_assign(id, d)`: if an element with key `id` exists its mapped value is assigned
`d`, otherwise a new element `(id, d)` is inserted. -/
def insert_or_assign {δ : Type} : List (uintptr_t × δ) → uintptr_t → δ → List (uintptr_t × δ)
  | [], id, d => [(id, d)]
  | (k, v) :: rest, id, d =>
      if k = id then (k, d) :: rest else (k, v) :: insert_or_assign rest id d

/-- `m.erase(id)`: erases the elements whose key equals `id`; nothing happens when there is
none. -/
def erase {δ : Type} : List (uintptr_t × δ) → uintptr_t → List (uintptr_t × δ)
  | [], _ => []
  | (k, v) :: rest, id => if k = id then erase rest id else (k, v) :: erase rest id

/-- The keys stored in the container, in storage order. -/
def keys {δ : Type} (m : List (uintptr_t × δ)) : List uintptr_t := m.map Prod.fst

end unordered_map

/-! ## The class `SignalManager` -/

/-- The data members of `SignalManager` that carry state between calls: the table
`delegates_`. -/
structure SignalManager (σ ε : Type) where
  delegates_ : List (uintptr_t × Delegate σ ε)

/-- What one call of a member function does, as seen by its caller. -/
structure Outcome (σ ε : Type) where
  /-- Normal return, or the exception that escaped the call. -/
  status : Except ε Unit
  /-- The registry after the call. -/
  manager : SignalManager σ ε
  /-- The state outside the registry after the call. -/
  world : σ
  /-- The handler invocations made during the call, in order, each with its argument. -/
  invoked : List (Delegate σ ε × String)

namespace SignalManager

variable {σ ε : Type}

/-- `SignalManager() = default`: the table of a freshly constructed registry (the one
`getInstance` creates on first use) is empty. -/
def initial : SignalManager σ ε := ⟨[]⟩

/-- Source:
```
void emit(uintptr_t id, rust::Str name) const {
  std::lock_guard<std::mutex> lock(mutex_);
  auto it = delegates_.find(id);
  if (it != delegates_.end()) {
    it->second(std::string(name));
  }
}
```
The body never writes `delegates_`; whatever the handler returns or throws is what the call
returns or throws. -/
def emit (self : SignalManager σ ε) (id : uintptr_t) (name : String) (w : σ) : Outcome σ ε :=
  match unordered_map.find self.delegates_ id with
  | some delegate =>
      let r := delegate name w
      ⟨r.1, self, r.2, [(delegate, name)]⟩
  | none => ⟨Except.ok (), self, w, []⟩

/-- Source:
```
void registerDelegate(uintptr_t id, Delegate delegate) const {
  std::lock_guard<std::mutex> lock(mutex_);
  delegates_.insert_or_assign(id, delegate);
}
``` -/
def registerDelegate (self : SignalManager σ ε) (id : uintptr_t) (delegate : Delegate σ ε) :
    SignalManager σ ε :=
  ⟨unordered_map.insert_or_assign self.delegates_ id delegate⟩

/-- Source:
```
void unregisterDelegate(uintptr_t id) const {
  std::lock_guard<std::mutex> lock(mutex_);
  delegates_.erase(id);
}
``` -/
def unregisterDelegate (self : SignalManager σ ε) (id : uintptr_t) : SignalManager σ ε :=
  ⟨unordered_map.erase self.delegates_ id⟩

end SignalManager

/-! ## Calls and histories -/

/-- One call of a public member function of the registry. -/
inductive Call (σ ε : Type) where
  | registerDelegate (id : uintptr_t) (delegate : Delegate σ ε)
  | unregisterDelegate (id : uintptr_t)
  | emit (id : uintptr_t) (name : String)

/-- Performing one call on registry `self` with outside state `w`. The two table updates
return normally, leave the outside state alone and invoke nothing; `emit` is the member
function above. -/
def perform {σ ε : Type} (self : SignalManager σ ε) (w : σ) : Call σ ε → Outcome σ ε
  | Call.registerDelegate id delegate => ⟨Except.ok (), self.registerDelegate id delegate, w, []⟩
  | Call.unregisterDelegate id => ⟨Except.ok (), self.unregisterDelegate id, w, []⟩
  | Call.emit id name => self.emit id name w

/-- A running process: the registry, the state outside it, and the handler invocations made
so far. -/
structure Process (σ ε : Type) where
  manager : SignalManager σ ε
  world : σ
  invoked : List (Delegate σ ε × String)

namespace Process

variable {σ ε : Type}

/-- A process that has not touched the registry yet. -/
def start (w : σ) : Process σ ε := ⟨SignalManager.initial, w, []⟩

/-- The process performs one call. An exception escaping `emit` is left to the caller; the
process goes on from the state the call left behind. -/
def call (p : Process σ ε) (c : Call σ ε) : Process σ ε :=
  let o := perform p.manager p.world c
  ⟨o.manager, o.world, p.invoked ++ o.invoked⟩

/-- The process performs a sequence of calls, first to last. -/
def run (p : Process σ ε) (cs : List (Call σ ε)) : Process σ ε := cs.foldl call p

end Process

/-- Following the words "the last call in the sequence that mentions `i`": the last
`registerDelegate(i, ·)` or `unregisterDelegate(i)` of the sequence, if there is one. -/
def lastMention {σ ε : Type} (i : uintptr_t) : List (Call σ ε) → Option (Call σ ε)
  | [] => none
  | c :: cs =>
      match lastMention i cs with
      | some c' => some c'
      | none =>
          match c with
          | Call.registerDelegate id _ => if id = i then some c else none
          | Call.unregisterDelegate id => if id = i then some c else none
          | Call.emit _ _ => none

/-- The handler of the end-to-end example: it appends its argument to a log and returns. -/
def appendToLog {ε : Type} : Delegate (List String) ε := fun name log => (Except.ok (), log ++ [name])

/-- A handler that records nothing and throws its argument. -/
def throwName : Delegate (List String) String := fun name log => (Except.error name, log)

/-- A registry state represents an `std::unordered_map` when no key is stored twice. -/
def SignalManager.WF {σ ε : Type} (self : SignalManager σ ε) : Prop :=
  (unordered_map.keys self.delegates_).Nodup

/-! ## The lock: `std::mutex mutex_`, and handlers that call back into the registry

The definitions above treat a member function as one indivisible step. The ones below keep
`mutex_` in the state and let a handler body call the registry, so that what the
`std::lock_guard` at the top of each member function does can be stated. -/

/-- One instruction of code that uses the registry, in particular of a handler body: a piece
of code that touches only the state outside the registry (and may throw), or a call of one of
the three member functions. A handler body is a list of instructions depending on the signal
name. -/
inductive Instr (σ ε : Type) where
  | act (f : σ → Except ε Unit × σ)
  | registerDelegate (id : uintptr_t) (delegate : String → List (Instr σ ε))
  | unregisterDelegate (id : uintptr_t)
  | emit (id : uintptr_t) (name : String)

/-- Whether an instruction is a call of a member function of the registry. -/
def Instr.isCall {σ ε : Type} : Instr σ ε → Bool
  | Instr.act _ => false
  | Instr.registerDelegate _ _ => true
  | Instr.unregisterDelegate _ => true
  | Instr.emit _ _ => true

/-- The data members of `SignalManager`, the mutex included, with the state outside the
registry: `mutex_` is `true` while a `std::lock_guard` owns it. -/
structure Machine (σ ε : Type) where
  delegates_ : List (uintptr_t × (String → List (Instr σ ε)))
  mutex_ : Bool
  world : σ

/-- How the execution of some code ends on the one thread considered. -/
inductive Result (σ ε : Type) where
  /-- The code ran to its end. -/
  | returned (m : Machine σ ε)
  /-- An exception left the code. -/
  | threw (e : ε) (m : Machine σ ε)
  /-- The thread waits in the constructor of a `std::lock_guard` for a mutex that is owned
  already. `std::mutex` is not recursive and no other thread is there to release it, so the
  wait never ends (the C++ standard calls relocking by the owner undefined; implementations
  deadlock). -/
  | blocked (m : Machine σ ε)
  /-- The step budget given to `exec` was used up before the code ended. -/
  | outOfFuel

/-- The machine state a result carries, if any. -/
def Result.state {σ ε : Type} : Result σ ε → Option (Machine σ ε)
  | Result.returned m => some m
  | Result.threw _ m => some m
  | Result.blocked m => some m
  | Result.outOfFuel => none

/-- The destructor of `std::lock_guard`: it runs when the guarded scope is left, by a return or
by an exception, and releases the mutex. A scope that is never left releases nothing. -/
def unlock {σ ε : Type} : Result σ ε → Result σ ε
  | Result.returned m => Result.returned ⟨m.delegates_, false, m.world⟩
  | Result.threw e m => Result.threw e ⟨m.delegates_, false, m.world⟩
  | r => r

/-- The scope `{ std::lock_guard<std::mutex> lock(mutex_); body }`: the constructor waits for
the mutex and takes it, the body runs with the mutex owned, the destructor releases it. -/
def lock_guard {σ ε : Type} (m : Machine σ ε) (body : Machine σ ε → Result σ ε) : Result σ ε :=
  if m.mutex_ then Result.blocked m else unlock (body ⟨m.delegates_, true, m.world⟩)

namespace Machine

variable {σ ε : Type}

/-- The member function `emit` with its lock: the lookup and the call `it->second(...)` are
both inside the guarded scope. `invoke` runs a handler body. -/
def emit (invoke : Machine σ ε → List (Instr σ ε) → Result σ ε) (self : Machine σ ε)
    (id : uintptr_t) (name : String) : Result σ ε :=
  lock_guard self fun m =>
    match unordered_map.find m.delegates_ id with
    | some delegate => invoke m (delegate name)
    | none => Result.returned m

/-- The member function `registerDelegate` with its lock. -/
def registerDelegate (self : Machine σ ε) (id : uintptr_t)
    (delegate : String → List (Instr σ ε)) : Result σ ε :=
  lock_guard self fun m =>
    Result.returned ⟨unordered_map.insert_or_assign m.delegates_ id delegate, m.mutex_, m.world⟩

/-- The member function `unregisterDelegate` with its lock. -/
def unregisterDelegate (self : Machine σ ε) (id : uintptr_t) : Result σ ε :=
  lock_guard self fun m =>
    Result.returned ⟨unordered_map.erase m.delegates_ id, m.mutex_, m.world⟩

end Machine

/-- Running a list of instructions with a step budget: every instruction costs one step, and a
handler invoked by `emit` runs on the budget that is left. An exception or a blocked lock ends
the run. -/
def exec {σ ε : Type} : Nat → Machine σ ε → List (Instr σ ε) → Result σ ε
  | _, m, [] => Result.returned m
  | 0, _, _ :: _ => Result.outOfFuel
  | n + 1, m, instr :: rest =>
      match (match instr with
        | Instr.act f =>
            match f m.world with
            | (Except.ok _, w) => Result.returned ⟨m.delegates_, m.mutex_, w⟩
            | (Except.error e, w) => Result.threw e ⟨m.delegates_, m.mutex_, w⟩
        | Instr.registerDelegate id delegate => m.registerDelegate id delegate
        | Instr.unregisterDelegate id => m.unregisterDelegate id
        | Instr.emit id name => Machine.emit (exec n) m id name) with
      | Result.returned m' => exec n m' rest
      | r => r

/-- A handler of the first model as a handler body: one piece of code that never calls the
registry. -/
def Delegate.toBody {σ ε : Type} (d : Delegate σ ε) : String → List (Instr σ ε) :=
  fun name => [Instr.act (d name)]

/-- A registry of the first model as a machine: same entries, mutex free. -/
def Machine.ofManager {σ ε : Type} (sm : SignalManager σ ε) (w : σ) : Machine σ ε :=
  ⟨sm.delegates_.map (fun e => (e.1, Delegate.toBody e.2)), false, w⟩

/-- What a call of the first model amounts to as a result of the lock-level model. -/
def Outcome.toResult {σ ε : Type} (o : Outcome σ ε) : Result σ ε :=
  match o.status with
  | Except.ok _ => Result.returned (Machine.ofManager o.manager o.world)
  | Except.error e => Result.threw e (Machine.ofManager o.manager o.world)

/-- A handler that unregisters itself: its body is the single call `unregisterDelegate(id)`. -/
def unregisterSelf {σ ε : Type} (id : uintptr_t) : String → List (Instr σ ε) :=
  fun _ => [Instr.unregisterDelegate id]

/-- A handler body that appends the signal name to a log and returns. -/
def logBody : String → List (Instr (List String) String) :=
  Delegate.toBody appendToLog

/-! ## Threads: member functions as sequences of steps under a scheduler

The definitions above run a member function as one indivisible step on one thread. Here several
threads run their calls step by step, in any interleaving. A member function is three or four
steps: the constructor of its `std::lock_guard`, the container operation in its body (a lookup
is one step, a write is two: it starts changing the table, then finishes), for `emit` the
instructions of the handler, and the destructor of the guard. Only the constructor of the guard
reads `mutex_`; nothing else keeps two container operations apart. -/

/-- What a thread does next, one indivisible step each.
* `run i`: an instruction not begun yet. For a call of a member function the step is the
  constructor of its `std::lock_guard`.
* `find id name`: the body of `emit`, `delegates_.find(id)` and, if found, the call of the
  handler with `name` (the handler's instructions become the thread's next steps).
* `insert_or_assign id d`, `erase id`: the container write in the body of `registerDelegate`,
  `unregisterDelegate` begins: it reads the table and starts changing it.
* `commit table`: the container write finishes and leaves `table`.
* `unlock`: the destructor of the `std::lock_guard`. -/
inductive Micro (σ ε : Type) where
  | run (i : Instr σ ε)
  | find (id : uintptr_t) (name : String)
  | insert_or_assign (id : uintptr_t) (delegate : String → List (Instr σ ε))
  | erase (id : uintptr_t)
  | commit (table : List (uintptr_t × (String → List (Instr σ ε))))
  | unlock

/-- An exception leaves the code it was thrown in: the steps up to the destructor of the
enclosing lock guard are skipped, the destructor runs. -/
def unwind {σ ε : Type} : List (Micro σ ε) → List (Micro σ ε)
  | [] => []
  | Micro.unlock :: k => Micro.unlock :: k
  | _ :: k => unwind k

/-- The shared registry, the threads, and two records kept for stating properties only (no step
reads them).
* `delegates_`, `mutex_` (the thread owning it, if any): the data members of `SignalManager`.
* `torn`: a container write has begun and not finished, the table is half-written.
* `world`: the state outside the registry.
* `todo t`: the steps thread `t` still has to take.
* `history`: the member-function calls, with their thread, in the order in which their lock
  guards took the mutex.
* `raced`: some container operation touched `delegates_` while it was half-written by another
  one (a data race). -/
structure System (σ ε : Type) where
  delegates_ : List (uintptr_t × (String → List (Instr σ ε)))
  torn : Bool
  mutex_ : Option Nat
  world : σ
  todo : Nat → List (Micro σ ε)
  history : List (Nat × Instr σ ε)
  raced : Bool

/-- The function `f` with its value at `t` replaced by `a`. -/
def setAt {α : Type} (f : Nat → α) (t : Nat) (a : α) : Nat → α :=
  fun x => if x = t then a else f x

/-- The constructor of `std::lock_guard<std::mutex> lock(mutex_)` on thread `t`, at the start
of call `c`: if the mutex is free the thread takes it and goes on with `k`; if it is owned
(by any thread, `t` included: `std::mutex` is not recursive) the thread waits, the step changes
nothing. -/
def lockThen {σ ε : Type} (s : System σ ε) (t : Nat) (c : Instr σ ε)
    (k : List (Micro σ ε)) : System σ ε :=
  match s.mutex_ with
  | none => ⟨s.delegates_, s.torn, some t, s.world, setAt s.todo t k, s.history ++ [(t, c)],
      s.raced⟩
  | some _ => s

/-- Thread `t` takes its next step. The three member functions unfold as in the source:
`lock_guard` constructor, container operation, `lock_guard` destructor. -/
def step {σ ε : Type} (s : System σ ε) (t : Nat) : System σ ε :=
  match s.todo t with
  | [] => s
  | Micro.run (Instr.act f) :: k =>
      match f s.world with
      | (Except.ok _, w) =>
          ⟨s.delegates_, s.torn, s.mutex_, w, setAt s.todo t k, s.history, s.raced⟩
      | (Except.error _, w) =>
          ⟨s.delegates_, s.torn, s.mutex_, w, setAt s.todo t (unwind k), s.history, s.raced⟩
  | Micro.run (Instr.registerDelegate id d) :: k =>
      lockThen s t (Instr.registerDelegate id d)
        (Micro.insert_or_assign id d :: Micro.unlock :: k)
  | Micro.run (Instr.unregisterDelegate id) :: k =>
      lockThen s t (Instr.unregisterDelegate id) (Micro.erase id :: Micro.unlock :: k)
  | Micro.run (Instr.emit id name) :: k =>
      lockThen s t (Instr.emit id name) (Micro.find id name :: Micro.unlock :: k)
  | Micro.find id name :: k =>
      match unordered_map.find s.delegates_ id with
      | some d =>
          ⟨s.delegates_, s.torn, s.mutex_, s.world,
            setAt s.todo t ((d name).map Micro.run ++ k), s.history, s.raced || s.torn⟩
      | none =>
          ⟨s.delegates_, s.torn, s.mutex_, s.world, setAt s.todo t k, s.history,
            s.raced || s.torn⟩
  | Micro.insert_or_assign id d :: k =>
      ⟨s.delegates_, true, s.mutex_, s.world,
        setAt s.todo t (Micro.commit (unordered_map.insert_or_assign s.delegates_ id d) :: k),
        s.history, s.raced || s.torn⟩
  | Micro.erase id :: k =>
      ⟨s.delegates_, true, s.mutex_, s.world,
        setAt s.todo t (Micro.commit (unordered_map.erase s.delegates_ id) :: k),
        s.history, s.raced || s.torn⟩
  | Micro.commit table :: k =>
      ⟨table, false, s.mutex_, s.world, setAt s.todo t k, s.history, s.raced⟩
  | Micro.unlock :: k =>
      ⟨s.delegates_, s.torn, none, s.world, setAt s.todo t k, s.history, s.raced⟩

/-- The threads take steps in the order the schedule names them. -/
def runSched {σ ε : Type} (s : System σ ε) (sched : List Nat) : System σ ε :=
  sched.foldl step s

/-- The start of the process: empty table, free mutex, thread `t` about to run `progs t`. -/
def System.init {σ ε : Type} (progs : Nat → List (Instr σ ε)) (w : σ) : System σ ε :=
  ⟨[], false, none, w, fun t => (progs t).map Micro.run, [], false⟩

/-- The state the threads reach from the start under a schedule. -/
def reached {σ ε : Type} (progs : Nat → List (Instr σ ε)) (w : σ) (sched : List Nat) :
    System σ ε :=
  runSched (System.init progs w) sched

/-- What one call, run alone, does to the table: `registerDelegate` is `insert_or_assign`,
`unregisterDelegate` is `erase`, `emit` leaves the table alone. -/
def Instr.onTable {σ ε : Type} :
    Instr σ ε → List (uintptr_t × (String → List (Instr σ ε))) →
      List (uintptr_t × (String → List (Instr σ ε)))
  | Instr.registerDelegate id d, T => unordered_map.insert_or_assign T id d
  | Instr.unregisterDelegate id, T => unordered_map.erase T id
  | _, T => T

/-- Following the words "applying the calls one at a time": the table after the calls of the
list, first to last, each run alone, starting from the empty table. -/
def oneAtATime {σ ε : Type} (calls : List (Instr σ ε)) :
    List (uintptr_t × (String → List (Instr σ ε))) :=
  calls.foldl (fun T c => c.onTable T) []

/-- The calls of thread `t` in a history, in order. -/
def callsOf {σ ε : Type} (t : Nat) (hist : List (Nat × Instr σ ε)) : List (Instr σ ε) :=
  (hist.filter (fun e => decide (e.1 = t))).map Prod.snd

/-- Whether a call is a `registerDelegate` or `unregisterDelegate` of identifier `i`. -/
def Instr.mentions {σ ε : Type} (i : uintptr_t) : Instr σ ε → Bool
  | Instr.registerDelegate id _ => decide (id = i)
  | Instr.unregisterDelegate id => decide (id = i)
  | _ => false

/-- Where the thread that owns the mutex stands inside its call `c`, the calls `hs` having
been completed before it: before its container operation (`ins`, `del`, `look`) the table is
that of `hs`; during its write (`com`) the table is torn; in or after the handler, or after the
write (`body`), the table is that of `hs` and `c`, and a handler still running is the one the
table holds. -/
inductive InnerOK {σ ε : Type} (T : List (uintptr_t × (String → List (Instr σ ε))))
    (torn : Bool) (hs : List (Instr σ ε)) : Instr σ ε → List (Micro σ ε) → Prop where
  | ins (id : uintptr_t) (d : String → List (Instr σ ε)) :
      torn = false → T = oneAtATime hs →
      InnerOK T torn hs (Instr.registerDelegate id d) [Micro.insert_or_assign id d]
  | del (id : uintptr_t) :
      torn = false → T = oneAtATime hs →
      InnerOK T torn hs (Instr.unregisterDelegate id) [Micro.erase id]
  | com (c : Instr σ ε) (table : List (uintptr_t × (String → List (Instr σ ε)))) :
      torn = true → T = oneAtATime hs → table = oneAtATime (hs ++ [c]) →
      InnerOK T torn hs c [Micro.commit table]
  | look (id : uintptr_t) (name : String) :
      torn = false → T = oneAtATime hs →
      InnerOK T torn hs (Instr.emit id name) [Micro.find id name]
  | body (c : Instr σ ε) (b : List (Instr σ ε)) :
      torn = false → T = oneAtATime (hs ++ [c]) →
      (b = [] ∨ ∃ id name d, c = Instr.emit id name ∧ unordered_map.find T id = some d ∧
        List.IsSuffix b (d name)) →
      InnerOK T torn hs c (b.map Micro.run)

/-- The invariant of the states reached by threads whose programs `progs` are calls of member
functions: no race has happened; with the mutex free the table is that of the history and every
thread stands between two calls; with the mutex owned by `t`, thread `t` stands inside the last
call of the history and every other thread between two calls. Each thread's calls in the
history, followed by the calls it has not begun, are its program. -/
structure Inv {σ ε : Type} (progs : Nat → List (Instr σ ε)) (s : System σ ε) : Prop where
  raced : s.raced = false
  free : s.mutex_ = none →
    s.torn = false ∧ s.delegates_ = oneAtATime (s.history.map Prod.snd)
  outside : ∀ t, s.mutex_ ≠ some t →
    ∃ code, s.todo t = code.map Micro.run ∧ progs t = callsOf t s.history ++ code
  held : ∀ t, s.mutex_ = some t →
    ∃ inner code h c, s.todo t = inner ++ Micro.unlock :: code.map Micro.run ∧
      progs t = callsOf t s.history ++ code ∧ s.history = h ++ [(t, c)] ∧
      InnerOK s.delegates_ s.torn (h.map Prod.snd) c inner

/-- Two threads working on identifiers 1 and 2: thread 0 registers a logging handler for 1 and
emits to it, thread 1 registers one for 2 and unregisters 1. -/
def twoThreads : Nat → List (Instr (List String) String) := fun t =>
  if t = 0 then [Instr.registerDelegate 1 logBody, Instr.emit 1 "ready"]
  else if t = 1 then [Instr.registerDelegate 2 logBody, Instr.unregisterDelegate 1]
  else []

/-- Two threads that use the container with no lock guard around it: thread 0 inserts 1,
thread 1 inserts 2 and looks up 1. Not code of the class; it shows what the guard is for. -/
def unguardedWriters : System (List String) String :=
  ⟨[], false, none, [], fun t =>
    if t = 0 then [Micro.insert_or_assign 1 logBody]
    else if t = 1 then [Micro.insert_or_assign 2 logBody, Micro.find 1 "ready"]
    else [], [], false⟩

/-! ## Facts about the container operations -/

namespace unordered_map

variable {δ : Type}

theorem find_insert_or_assign_same (m : List (uintptr_t × δ)) (id : uintptr_t) (d : δ) :
    find (insert_or_assign m id d) id = some d := by
  induction m with
  | nil => simp [insert_or_assign, find]
  | cons e rest ih =>
      obtain ⟨k, v⟩ := e
      by_cases hk : k = id
      · simp [insert_or_assign, find, hk]
      · simp [insert_or_assign, find, hk, ih]

theorem find_insert_or_assign_other (m : List (uintptr_t × δ)) (id j : uintptr_t) (d : δ)
    (hne : id ≠ j) : find (insert_or_assign m id d) j = find m j := by
  induction m with
  | nil => simp [insert_or_assign, find, hne]
  | cons e rest ih =>
      obtain ⟨k, v⟩ := e
      by_cases hk : k = id
      · subst hk
        simp [insert_or_assign, find, hne]
      · by_cases hj : k = j
        · subst hj
          simp [insert_or_assign, find, hk]
        · simp [insert_or_assign, find, hk, hj, ih]

theorem find_erase_same (m : List (uintptr_t × δ)) (id : uintptr_t) :
    find (erase m id) id = none := by
  induction m with
  | nil => simp [erase, find]
  | cons e rest ih =>
      obtain ⟨k, v⟩ := e
      by_cases hk : k = id
      · simp [erase, hk, ih]
      · simp [erase, find, hk, ih]

theorem find_erase_other (m : List (uintptr_t × δ)) (id j : uintptr_t) (hne : id ≠ j) :
    find (erase m id) j = find m j := by
  induction m with
  | nil => simp [erase, find]
  | cons e rest ih =>
      obtain ⟨k, v⟩ := e
      by_cases hk : k = id
      · subst hk
        simp [erase, find, hne, ih]
      · by_cases hj : k = j
        · subst hj
          simp [erase, find, hk]
        · simp [erase, find, hk, hj, ih]

theorem find_eq_none_iff (m : List (uintptr_t × δ)) (id : uintptr_t) :
    find m id = none ↔ id ∉ keys m := by
  induction m with
  | nil => simp [find, keys]
  | cons e rest ih =>
      obtain ⟨k, v⟩ := e
      by_cases hk : k = id
      · simp [find, keys, hk]
      · have hk' : ¬ id = k := fun h => hk h.symm
        simpa [find, keys, hk, hk'] using ih

theorem erase_of_find_eq_none (m : List (uintptr_t × δ)) (id : uintptr_t)
    (h : find m id = none) : erase m id = m := by
  induction m with
  | nil => simp [erase]
  | cons e rest ih =>
      obtain ⟨k, v⟩ := e
      by_cases hk : k = id
      · simp [find, hk] at h
      · simp [find, hk] at h
        simp [erase, hk, ih h]

theorem keys_insert_or_assign (m : List (uintptr_t × δ)) (id : uintptr_t) (d : δ) :
    keys (insert_or_assign m id d) = if id ∈ keys m then keys m else keys m ++ [id] := by
  induction m with
  | nil => simp [insert_or_assign, keys]
  | cons e rest ih =>
      obtain ⟨k, v⟩ := e
      by_cases hk : k = id
      · simp [insert_or_assign, keys, hk]
      · have hk' : ¬ id = k := fun h => hk h.symm
        simp only [keys] at ih
        by_cases hmem : id ∈ List.map Prod.fst rest
        · simp [insert_or_assign, keys, hk, hk', hmem, ih]
        · simp [insert_or_assign, keys, hk, hk', hmem, ih]

theorem mem_erase_iff (m : List (uintptr_t × δ)) (id : uintptr_t) (e : uintptr_t × δ) :
    e ∈ erase m id ↔ e ∈ m ∧ e.1 ≠ id := by
  induction m with
  | nil => simp [erase]
  | cons x rest ih =>
      obtain ⟨k, v⟩ := x
      by_cases hk : k = id
      · subst hk
        simp only [erase, if_true, ih, List.mem_cons]
        constructor
        · rintro ⟨h1, h2⟩
          exact ⟨Or.inr h1, h2⟩
        · rintro ⟨h1 | h1, h2⟩
          · exact absurd (by rw [h1]) h2
          · exact ⟨h1, h2⟩
      · simp only [erase, hk, if_false, List.mem_cons, ih]
        constructor
        · rintro (h1 | ⟨h1, h2⟩)
          · exact ⟨Or.inl h1, by rw [h1]; exact hk⟩
          · exact ⟨Or.inr h1, h2⟩
        · rintro ⟨h1 | h1, h2⟩
          · exact Or.inl h1
          · exact Or.inr ⟨h1, h2⟩

theorem keys_erase (m : List (uintptr_t × δ)) (id : uintptr_t) :
    keys (erase m id) = (keys m).filter (fun k => decide (k ≠ id)) := by
  induction m with
  | nil => simp [erase, keys]
  | cons e rest ih =>
      obtain ⟨k, v⟩ := e
      simp only [keys] at ih
      by_cases hk : k = id
      · simp [erase, keys, hk, ih]
      · simp [erase, keys, hk, ih]

theorem nodup_keys_insert_or_assign (m : List (uintptr_t × δ)) (id : uintptr_t) (d : δ)
    (h : (keys m).Nodup) : (keys (insert_or_assign m id d)).Nodup := by
  rw [keys_insert_or_assign]
  by_cases hmem : id ∈ keys m
  · simpa [hmem] using h
  · simp only [hmem, if_false]
    rw [List.nodup_append]
    refine ⟨h, List.nodup_singleton id, ?_⟩
    intro a ha hb
    simp only [List.mem_singleton] at hb
    exact hmem (hb ▸ ha)

theorem nodup_keys_erase (m : List (uintptr_t × δ)) (id : uintptr_t)
    (h : (keys m).Nodup) : (keys (erase m id)).Nodup := by
  rw [keys_erase]
  exact h.filter _

theorem find_eq_some_of_mem (m : List (uintptr_t × δ)) (id : uintptr_t) (d : δ)
    (hnd : (keys m).Nodup) (hmem : (id, d) ∈ m) : find m id = some d := by
  induction m with
  | nil => simp at hmem
  | cons e rest ih =>
      obtain ⟨k, v⟩ := e
      have hnd' : k ∉ keys rest ∧ (keys rest).Nodup := by simpa [keys] using hnd
      rcases List.mem_cons.mp hmem with heq | hin
      · cases heq
        simp [find]
      · have hk : ¬ k = id := by
          intro hk
          apply hnd'.1
          rw [hk]
          exact List.mem_map.mpr ⟨(id, d), hin, rfl⟩
        simp [find, hk, ih hnd'.2 hin]

theorem mem_of_find_eq_some (m : List (uintptr_t × δ)) (id : uintptr_t) (d : δ)
    (h : find m id = some d) : (id, d) ∈ m := by
  induction m with
  | nil => simp [find] at h
  | cons e rest ih =>
      obtain ⟨k, v⟩ := e
      by_cases hk : k = id
      · simp [find, hk] at h
        simp [hk, h]
      · simp [find, hk] at h
        exact List.mem_cons_of_mem _ (ih h)

theorem insert_or_assign_comm_perm (m : List (uintptr_t × δ)) (i1 i2 : uintptr_t) (d1 d2 : δ)
    (hne : i1 ≠ i2) :
    List.Perm (insert_or_assign (insert_or_assign m i1 d1) i2 d2)
      (insert_or_assign (insert_or_assign m i2 d2) i1 d1) := by
  have hne' : ¬ i2 = i1 := fun h => hne h.symm
  induction m with
  | nil =>
      simp only [insert_or_assign, hne, hne', if_false]
      exact List.Perm.swap _ _ _
  | cons e rest ih =>
      obtain ⟨k, v⟩ := e
      by_cases hk1 : k = i1
      · subst hk1
        simp [insert_or_assign, hne]
      · by_cases hk2 : k = i2
        · subst hk2
          simp [insert_or_assign, hk1]
        · simp only [insert_or_assign, hk1, hk2, if_false]
          exact List.Perm.cons _ ih

theorem erase_insert_or_assign_comm (m : List (uintptr_t × δ)) (i1 i2 : uintptr_t) (d1 : δ)
    (hne : i1 ≠ i2) :
    erase (insert_or_assign m i1 d1) i2 = insert_or_assign (erase m i2) i1 d1 := by
  induction m with
  | nil => simp [insert_or_assign, erase, hne]
  | cons e rest ih =>
      obtain ⟨k, v⟩ := e
      by_cases hk1 : k = i1
      · subst hk1
        simp [insert_or_assign, erase, hne]
      · by_cases hk2 : k = i2
        · subst hk2
          simp [insert_or_assign, erase, hk1, ih]
        · simp [insert_or_assign, erase, hk1, hk2, ih]

theorem erase_insert_or_assign_same (m : List (uintptr_t × δ)) (id : uintptr_t) (d : δ)
    (habs : id ∉ keys m) : erase (insert_or_assign m id d) id = m := by
  induction m with
  | nil => simp [insert_or_assign, erase]
  | cons e rest ih =>
      obtain ⟨k, v⟩ := e
      have hk : ¬ k = id := by
        intro hk
        apply habs
        simp [keys, hk]
      have hrest : id ∉ keys rest := by
        intro hmem
        apply habs
        simp only [keys, List.map_cons, List.mem_cons]
        exact Or.inr hmem
      simp [insert_or_assign, erase, hk, ih hrest]

theorem erase_erase_same (m : List (uintptr_t × δ)) (id : uintptr_t) :
    erase (erase m id) id = erase m id :=
  erase_of_find_eq_none _ id (find_erase_same m id)

end unordered_map

/-! ## Facts about `emit` used by several properties -/

namespace SignalManager

variable {σ ε : Type}

theorem emit_of_find_some (sm : SignalManager σ ε) (i : uintptr_t) (name : String) (w : σ)
    (h : Delegate σ ε) (hf : unordered_map.find sm.delegates_ i = some h) :
    sm.emit i name w = ⟨(h name w).1, sm, (h name w).2, [(h, name)]⟩ := by
  simp [emit, hf]

theorem emit_of_find_none (sm : SignalManager σ ε) (i : uintptr_t) (name : String) (w : σ)
    (hf : unordered_map.find sm.delegates_ i = none) :
    sm.emit i name w = ⟨Except.ok (), sm, w, []⟩ := by
  simp [emit, hf]

end SignalManager

/-! ## Facts about histories -/

theorem lastMention_eq_register {σ ε : Type} (i id : uintptr_t) (h : Delegate σ ε)
    (cs : List (Call σ ε)) (hl : lastMention i cs = some (Call.registerDelegate id h)) :
    id = i := by
  induction cs with
  | nil => simp [lastMention] at hl
  | cons c cs ih =>
      cases hrest : lastMention i cs with
      | some c' =>
          simp only [lastMention, hrest] at hl
          exact ih (hrest.trans hl)
      | none =>
          simp only [lastMention, hrest] at hl
          cases c with
          | registerDelegate id' d =>
              by_cases hid : id' = i
              · simp only [hid, if_true, Option.some.injEq, Call.registerDelegate.injEq] at hl
                exact hl.1.symm
              · simp [hid] at hl
          | unregisterDelegate id' =>
              by_cases hid : id' = i
              · simp [hid] at hl
              · simp [hid] at hl
          | emit id' n => simp at hl

theorem lastMention_eq_unregister {σ ε : Type} (i id : uintptr_t)
    (cs : List (Call σ ε)) (hl : lastMention i cs = some (Call.unregisterDelegate id)) :
    id = i := by
  induction cs with
  | nil => simp [lastMention] at hl
  | cons c cs ih =>
      cases hrest : lastMention i cs with
      | some c' =>
          simp only [lastMention, hrest] at hl
          exact ih (hrest.trans hl)
      | none =>
          simp only [lastMention, hrest] at hl
          cases c with
          | registerDelegate id' d =>
              by_cases hid : id' = i
              · simp [hid] at hl
              · simp [hid] at hl
          | unregisterDelegate id' =>
              by_cases hid : id' = i
              · simp only [hid, if_true, Option.some.injEq, Call.unregisterDelegate.injEq] at hl
                exact hl.symm
              · simp [hid] at hl
          | emit id' n => simp at hl

theorem lastMention_ne_emit {σ ε : Type} (i id : uintptr_t) (n : String)
    (cs : List (Call σ ε)) : lastMention i cs ≠ some (Call.emit id n) := by
  induction cs with
  | nil => simp [lastMention]
  | cons c cs ih =>
      cases hrest : lastMention i cs with
      | some c' =>
          simp only [lastMention, hrest]
          rw [← hrest]
          exact ih
      | none =>
          simp only [lastMention, hrest]
          cases c with
          | registerDelegate id' d =>
              by_cases hid : id' = i
              · simp [hid]
              · simp [hid]
          | unregisterDelegate id' =>
              by_cases hid : id' = i
              · simp [hid]
              · simp [hid]
          | emit id' n' => simp

/-- What the table holds for `i` after a history, read off the last call that mentions `i`. -/
theorem find_run {σ ε : Type} (i : uintptr_t) (cs : List (Call σ ε)) (p : Process σ ε) :
    unordered_map.find (p.run cs).manager.delegates_ i =
      match lastMention i cs with
      | some (Call.registerDelegate _ h) => some h
      | some _ => none
      | none => unordered_map.find p.manager.delegates_ i := by
  induction cs generalizing p with
  | nil => simp [Process.run, lastMention]
  | cons c cs ih =>
      have hstep : (p.run (c :: cs)) = (p.call c).run cs := by simp [Process.run]
      rw [hstep, ih (p.call c)]
      cases hrest : lastMention i cs with
      | some c' =>
          simp only [lastMention, hrest]
          cases c' <;> rfl
      | none =>
          simp only [lastMention, hrest]
          cases c with
          | registerDelegate id d =>
              by_cases hid : id = i
              · subst hid
                simp [Process.call, perform, SignalManager.registerDelegate,
                  unordered_map.find_insert_or_assign_same]
              · simp [Process.call, perform, SignalManager.registerDelegate, hid,
                  unordered_map.find_insert_or_assign_other _ id i d hid]
          | unregisterDelegate id =>
              by_cases hid : id = i
              · subst hid
                simp [Process.call, perform, SignalManager.unregisterDelegate,
                  unordered_map.find_erase_same]
              · simp [Process.call, perform, SignalManager.unregisterDelegate, hid,
                  unordered_map.find_erase_other _ id i hid]
          | emit id n =>
              simp only [Process.call, perform, SignalManager.emit]
              cases unordered_map.find p.manager.delegates_ id <;> rfl

theorem wf_run {σ ε : Type} (cs : List (Call σ ε)) (p : Process σ ε) (h : p.manager.WF) :
    (p.run cs).manager.WF := by
  induction cs generalizing p with
  | nil => simpa [Process.run] using h
  | cons c cs ih =>
      have hstep : (p.run (c :: cs)) = (p.call c).run cs := by simp [Process.run]
      rw [hstep]
      apply ih
      cases c with
      | registerDelegate id d =>
          exact unordered_map.nodup_keys_insert_or_assign _ id d h
      | unregisterDelegate id =>
          exact unordered_map.nodup_keys_erase _ id h
      | emit id n =>
          simp only [Process.call, perform, SignalManager.emit]
          cases unordered_map.find p.manager.delegates_ id <;> exact h

/-! ## Facts about the lock-level model -/

section LockFacts

variable {σ ε : Type}

/-- With the mutex owned, a call of a member function blocks in its lock guard. -/
theorem exec_call_of_held (m : Machine σ ε) (hheld : m.mutex_ = true) (c : Instr σ ε)
    (hc : c.isCall = true) (rest : List (Instr σ ε)) (n : Nat) :
    exec (n + 1) m (c :: rest) = Result.blocked m := by
  cases c with
  | act f => simp [Instr.isCall] at hc
  | registerDelegate id d => simp [exec, Machine.registerDelegate, lock_guard, hheld]
  | unregisterDelegate id => simp [exec, Machine.unregisterDelegate, lock_guard, hheld]
  | emit id name => simp [exec, Machine.emit, lock_guard, hheld]

/-- Code run with the mutex owned neither releases it nor changes the table. -/
theorem exec_held_state (n : Nat) (m : Machine σ ε) (b : List (Instr σ ε))
    (hheld : m.mutex_ = true) (m' : Machine σ ε) (hres : (exec n m b).state = some m') :
    m'.delegates_ = m.delegates_ ∧ m'.mutex_ = true := by
  induction n generalizing m b with
  | zero =>
      cases b with
      | nil =>
          simp only [exec, Result.state, Option.some.injEq] at hres
          subst hres
          exact ⟨rfl, hheld⟩
      | cons c rest => simp [exec, Result.state] at hres
  | succ n ih =>
      cases b with
      | nil =>
          simp only [exec, Result.state, Option.some.injEq] at hres
          subst hres
          exact ⟨rfl, hheld⟩
      | cons c rest =>
          cases hcall : c.isCall with
          | true =>
              rw [exec_call_of_held m hheld c hcall rest n] at hres
              simp only [Result.state, Option.some.injEq] at hres
              subst hres
              exact ⟨rfl, hheld⟩
          | false =>
              cases c with
              | act f =>
                  rcases hf : f m.world with ⟨st, w⟩
                  cases st with
                  | ok u =>
                      simp only [exec, hf] at hres
                      exact ih ⟨m.delegates_, m.mutex_, w⟩ rest hheld hres
                  | error e =>
                      simp only [exec, hf, Result.state, Option.some.injEq] at hres
                      subst hres
                      exact ⟨rfl, hheld⟩
              | registerDelegate id d => simp [Instr.isCall] at hcall
              | unregisterDelegate id => simp [Instr.isCall] at hcall
              | emit id name => simp [Instr.isCall] at hcall

/-- Code run with the mutex owned returns only if it contains no call of a member function. -/
theorem exec_returned_of_held (n : Nat) (m : Machine σ ε) (b : List (Instr σ ε))
    (hheld : m.mutex_ = true) (m' : Machine σ ε) (hres : exec n m b = Result.returned m') :
    ∀ c ∈ b, c.isCall = false := by
  induction n generalizing m b with
  | zero =>
      cases b with
      | nil => simp
      | cons c rest => simp [exec] at hres
  | succ n ih =>
      cases b with
      | nil => simp
      | cons c rest =>
          cases hcall : c.isCall with
          | true =>
              rw [exec_call_of_held m hheld c hcall rest n] at hres
              cases hres
          | false =>
              cases c with
              | act f =>
                  rcases hf : f m.world with ⟨st, w⟩
                  cases st with
                  | ok u =>
                      simp only [exec, hf] at hres
                      have hrest := ih ⟨m.delegates_, m.mutex_, w⟩ rest hheld hres
                      intro c hc
                      rcases List.mem_cons.mp hc with h1 | h1
                      · rw [h1]
                        rfl
                      · exact hrest c h1
                  | error e => simp [exec, hf] at hres
              | registerDelegate id d => simp [Instr.isCall] at hcall
              | unregisterDelegate id => simp [Instr.isCall] at hcall
              | emit id name => simp [Instr.isCall] at hcall

/-- Code without calls of member functions ends, by a return or an exception, within as many
steps as it has instructions, leaving table and mutex as they were. -/
theorem exec_of_no_call (b : List (Instr σ ε)) (hb : ∀ c ∈ b, c.isCall = false)
    (m : Machine σ ε) (n : Nat) :
    ∃ m', (exec (n + b.length) m b = Result.returned m' ∨
        ∃ e, exec (n + b.length) m b = Result.threw e m') ∧
      m'.delegates_ = m.delegates_ ∧ m'.mutex_ = m.mutex_ := by
  induction b generalizing m with
  | nil => exact ⟨m, Or.inl (by simp [exec]), rfl, rfl⟩
  | cons c rest ih =>
      have hrest : ∀ c' ∈ rest, c'.isCall = false :=
        fun c' hc' => hb c' (List.mem_cons_of_mem _ hc')
      have hc := hb c (List.mem_cons_self _ _)
      have hfuel : n + (c :: rest).length = (n + rest.length) + 1 := by
        simp [Nat.add_assoc]
      rw [hfuel]
      cases c with
      | act f =>
          rcases hf : f m.world with ⟨st, w⟩
          cases st with
          | ok u =>
              obtain ⟨m', hm', hd, hmu⟩ := ih hrest ⟨m.delegates_, m.mutex_, w⟩
              refine ⟨m', ?_, hd, hmu⟩
              simpa only [exec, hf] using hm'
          | error e =>
              refine ⟨⟨m.delegates_, m.mutex_, w⟩, Or.inr ⟨e, ?_⟩, rfl, rfl⟩
              simp only [exec, hf]
      | registerDelegate id d => simp [Instr.isCall] at hc
      | unregisterDelegate id => simp [Instr.isCall] at hc
      | emit id name => simp [Instr.isCall] at hc

theorem Machine.emit_of_free_some (invoke : Machine σ ε → List (Instr σ ε) → Result σ ε)
    (m : Machine σ ε) (id : uintptr_t) (name : String) (d : String → List (Instr σ ε))
    (hfree : m.mutex_ = false) (hfind : unordered_map.find m.delegates_ id = some d) :
    Machine.emit invoke m id name = unlock (invoke ⟨m.delegates_, true, m.world⟩ (d name)) := by
  simp [Machine.emit, lock_guard, hfree, hfind]

theorem Machine.emit_of_free_none (invoke : Machine σ ε → List (Instr σ ε) → Result σ ε)
    (m : Machine σ ε) (id : uintptr_t) (name : String)
    (hfree : m.mutex_ = false) (hfind : unordered_map.find m.delegates_ id = none) :
    Machine.emit invoke m id name = Result.returned ⟨m.delegates_, false, m.world⟩ := by
  simp [Machine.emit, lock_guard, hfree, hfind, unlock]

theorem unordered_map.find_map {α β : Type} (g : α → β) (m : List (uintptr_t × α))
    (id : uintptr_t) :
    unordered_map.find (m.map (fun e => (e.1, g e.2))) id
      = (unordered_map.find m id).map g := by
  induction m with
  | nil => simp [unordered_map.find]
  | cons e rest ih =>
      obtain ⟨k, v⟩ := e
      by_cases hk : k = id
      · simp [unordered_map.find, hk]
      · simp [unordered_map.find, hk, ih]

theorem unordered_map.insert_or_assign_map {α β : Type} (g : α → β)
    (m : List (uintptr_t × α)) (id : uintptr_t) (d : α) :
    (unordered_map.insert_or_assign m id d).map (fun e => (e.1, g e.2))
      = unordered_map.insert_or_assign (m.map (fun e => (e.1, g e.2))) id (g d) := by
  induction m with
  | nil => simp [unordered_map.insert_or_assign]
  | cons e rest ih =>
      obtain ⟨k, v⟩ := e
      by_cases hk : k = id
      · simp [unordered_map.insert_or_assign, hk]
      · simp [unordered_map.insert_or_assign, hk, ih]

theorem unordered_map.erase_map {α β : Type} (g : α → β) (m : List (uintptr_t × α))
    (id : uintptr_t) :
    (unordered_map.erase m id).map (fun e => (e.1, g e.2))
      = unordered_map.erase (m.map (fun e => (e.1, g e.2))) id := by
  induction m with
  | nil => simp [unordered_map.erase]
  | cons e rest ih =>
      obtain ⟨k, v⟩ := e
      by_cases hk : k = id
      · simp [unordered_map.erase, hk, ih]
      · simp [unordered_map.erase, hk, ih]

/-- On a free mutex and handlers that do not call back, `emit` of the lock-level model does
what `emit` of the first model does. -/
theorem exec_emit_ofManager (sm : SignalManager σ ε) (id : uintptr_t) (name : String) (w : σ)
    (n : Nat) :
    exec (n + 2) (Machine.ofManager sm w) [Instr.emit id name]
      = (sm.emit id name w).toResult := by
  have hmap := unordered_map.find_map Delegate.toBody sm.delegates_ id
  cases hf : unordered_map.find sm.delegates_ id with
  | none =>
      rw [hf] at hmap
      rw [SignalManager.emit_of_find_none sm id name w hf]
      simp only [exec, Machine.ofManager] at hmap ⊢
      rw [Machine.emit_of_free_none _ _ id name rfl hmap]
      simp [exec, Outcome.toResult, Machine.ofManager]
  | some d =>
      rw [hf] at hmap
      rw [SignalManager.emit_of_find_some sm id name w d hf]
      simp only [exec, Machine.ofManager] at hmap ⊢
      rw [Machine.emit_of_free_some _ _ id name (Delegate.toBody d) rfl hmap]
      rcases hd : d name w with ⟨st, w'⟩
      cases st with
      | ok u => simp [exec, Delegate.toBody, hd, unlock, Outcome.toResult, Machine.ofManager]
      | error e => simp [exec, Delegate.toBody, hd, unlock, Outcome.toResult, Machine.ofManager]

/-- On a free mutex, `registerDelegate` of the lock-level model does what `registerDelegate`
of the first model does. -/
theorem exec_registerDelegate_ofManager (sm : SignalManager σ ε) (id : uintptr_t)
    (d : Delegate σ ε) (w : σ) (n : Nat) :
    exec (n + 1) (Machine.ofManager sm w) [Instr.registerDelegate id (Delegate.toBody d)]
      = Result.returned (Machine.ofManager (sm.registerDelegate id d) w) := by
  simp [exec, Machine.registerDelegate, lock_guard, unlock, Machine.ofManager,
    SignalManager.registerDelegate, unordered_map.insert_or_assign_map]

/-- On a free mutex, `unregisterDelegate` of the lock-level model does what
`unregisterDelegate` of the first model does. -/
theorem exec_unregisterDelegate_ofManager (sm : SignalManager σ ε) (id : uintptr_t) (w : σ)
    (n : Nat) :
    exec (n + 1) (Machine.ofManager sm w) [Instr.unregisterDelegate id]
      = Result.returned (Machine.ofManager (sm.unregisterDelegate id) w) := by
  simp [exec, Machine.unregisterDelegate, lock_guard, unlock, Machine.ofManager,
    SignalManager.unregisterDelegate, unordered_map.erase_map]

/-- The lock on one thread, as a function of fuel: on a machine `m` whose mutex is free and whose
table holds handler `d` for `id`, `emit(id, name)` takes the lock before the lookup and releases
it only after the handler body has ended: the body runs on the state of `m` with the mutex
owned, and whatever state it reaches still has the mutex owned. Consequently a call of
`registerDelegate`, `unregisterDelegate` or `emit` made while the mutex is owned blocks in its
lock guard; an `emit` whose handler begins with such a call ends blocked, with the mutex still
owned, for every step budget of two or more; and an `emit` whose handler contains such a call
never returns, whatever the budget. -/
theorem exec_emit_lock_held (m : Machine σ ε) (id : uintptr_t) (name : String)
    (d : String → List (Instr σ ε)) (hfree : m.mutex_ = false)
    (hfind : unordered_map.find m.delegates_ id = some d) :
    (∀ invoke, Machine.emit invoke m id name
      = unlock (invoke ⟨m.delegates_, true, m.world⟩ (d name))) ∧
    (∀ n m', (exec n ⟨m.delegates_, true, m.world⟩ (d name)).state = some m' →
      m'.mutex_ = true) ∧
    (∀ (m1 : Machine σ ε) (c : Instr σ ε) (rest : List (Instr σ ε)) (n : Nat),
      m1.mutex_ = true → c.isCall = true → exec (n + 1) m1 (c :: rest) = Result.blocked m1) ∧
    (∀ (c : Instr σ ε) (rest : List (Instr σ ε)) (n : Nat), d name = c :: rest →
      c.isCall = true →
      exec (n + 2) m [Instr.emit id name] = Result.blocked ⟨m.delegates_, true, m.world⟩) ∧
    ((∃ c ∈ d name, c.isCall = true) →
      ∀ n m', exec n m [Instr.emit id name] ≠ Result.returned m') := by
  refine ⟨fun invoke => Machine.emit_of_free_some invoke m id name d hfree hfind,
    fun n m' hres => (exec_held_state n _ (d name) rfl m' hres).2,
    fun m1 c rest n hheld hc => exec_call_of_held m1 hheld c hc rest n,
    fun c rest n hbody hc => ?_, ?_⟩
  · have hemit := Machine.emit_of_free_some (exec (n + 1)) m id name d hfree hfind
    rw [hbody, exec_call_of_held ⟨m.delegates_, true, m.world⟩ rfl c hc rest n] at hemit
    simp only [exec, hemit, unlock]
  · rintro ⟨c, hcmem, hc⟩ n m' hres
    cases n with
    | zero => simp [exec] at hres
    | succ k =>
        have hemit := Machine.emit_of_free_some (exec k) m id name d hfree hfind
        simp only [exec, hemit] at hres
        cases hbody : exec k ⟨m.delegates_, true, m.world⟩ (d name) with
        | returned m2 =>
            have hno := exec_returned_of_held k _ (d name) rfl m2 hbody c hcmem
            rw [hc] at hno
            cases hno
        | threw e m2 => simp [hbody, unlock] at hres
        | blocked m2 => simp [hbody, unlock] at hres
        | outOfFuel => simp [hbody, unlock] at hres

/-- An instance: the handler registered for 42 unregisters itself. On a free
mutex `emit(42, "ready")` ends blocked inside the handler, the mutex owned and the entry still
in the table. -/
theorem exec_emit_lock_held_example :
    (Machine.mk [(42, unregisterSelf 42)] false ([] : List String) :
      Machine (List String) String).mutex_ = false ∧
    unordered_map.find (Machine.mk [(42, unregisterSelf 42)] false ([] : List String) :
      Machine (List String) String).delegates_ 42 = some (unregisterSelf 42) ∧
    exec 5 (Machine.mk [(42, unregisterSelf 42)] false ([] : List String) :
      Machine (List String) String) [Instr.emit 42 "ready"]
      = Result.blocked (Machine.mk [(42, unregisterSelf 42)] true []) :=
  ⟨rfl, rfl,
   (exec_emit_lock_held (Machine.mk [(42, unregisterSelf 42)] false ([] : List String) :
      Machine (List String) String) 42 "ready" (unregisterSelf 42) rfl rfl).2.2.2.1
      (Instr.unregisterDelegate 42) [] 3 rfl rfl⟩

end LockFacts

/-! ## Facts about threads -/

section ConcFacts
variable {σ ε : Type}

theorem setAt_same {α : Type} (f : Nat → α) (t : Nat) (a : α) : setAt f t a t = a := by
  simp [setAt]

theorem setAt_other {α : Type} (f : Nat → α) (t x : Nat) (a : α) (h : x ≠ t) :
    setAt f t a x = f x := by
  simp [setAt, h]

theorem callsOf_append_same (t : Nat) (h : List (Nat × Instr σ ε)) (c : Instr σ ε) :
    callsOf t (h ++ [(t, c)]) = callsOf t h ++ [c] := by
  simp [callsOf, List.filter_append]

theorem callsOf_append_other (t t' : Nat) (h : List (Nat × Instr σ ε)) (c : Instr σ ε)
    (hne : t ≠ t') : callsOf t' (h ++ [(t, c)]) = callsOf t' h := by
  simp [callsOf, List.filter_append, hne]

theorem oneAtATime_append (cs : List (Instr σ ε)) (c : Instr σ ε) :
    oneAtATime (cs ++ [c]) = c.onTable (oneAtATime cs) := by
  simp [oneAtATime, List.foldl_append]

theorem unwind_body (b : List (Instr σ ε)) (k : List (Micro σ ε)) :
    unwind (b.map Micro.run ++ Micro.unlock :: k) = Micro.unlock :: k := by
  induction b with
  | nil => simp [unwind]
  | cons i b ih => simpa [unwind] using ih

theorem inv_init (progs : Nat → List (Instr σ ε)) (w : σ) : Inv progs (System.init progs w) where
  raced := rfl
  free := fun _ => ⟨rfl, rfl⟩
  outside := fun t _ => ⟨progs t, rfl, by simp [System.init, callsOf]⟩
  held := fun t h => by simp [System.init] at h

theorem inv_lockThen {progs : Nat → List (Instr σ ε)} {s : System σ ε} (hs : Inv progs s)
    (hm : s.mutex_ = none) (t : Nat) (c : Instr σ ε) (code : List (Instr σ ε))
    (hprogs : progs t = callsOf t s.history ++ c :: code) (inner : List (Micro σ ε))
    (hinner : InnerOK s.delegates_ s.torn (s.history.map Prod.snd) c inner) :
    Inv progs ⟨s.delegates_, s.torn, some t, s.world,
      setAt s.todo t (inner ++ Micro.unlock :: code.map Micro.run),
      s.history ++ [(t, c)], s.raced⟩ where
  raced := hs.raced
  free := fun h => by simp at h
  outside := fun t' hne => by
    have hne' : t' ≠ t := fun e => hne (by rw [e])
    obtain ⟨code', h1, h2⟩ := hs.outside t' (by rw [hm]; simp)
    refine ⟨code', ?_, ?_⟩
    · simp only [setAt_other _ _ _ _ hne', h1]
    · simp only [callsOf_append_other t t' _ _ (Ne.symm hne'), h2]
  held := fun t' h => by
    have ht : t' = t := (Option.some.inj h).symm
    subst ht
    refine ⟨inner, code, s.history, c, ?_, ?_, rfl, hinner⟩
    · simp only [setAt_same]
    · simp only [callsOf_append_same, hprogs, List.append_assoc, List.singleton_append]

theorem inv_owner {progs : Nat → List (Instr σ ε)} {s : System σ ε} (hs : Inv progs s)
    (t : Nat) (hm : s.mutex_ = some t) (code : List (Instr σ ε)) (h : List (Nat × Instr σ ε))
    (c : Instr σ ε) (hprogs : progs t = callsOf t s.history ++ code)
    (hhist : s.history = h ++ [(t, c)])
    (T : List (uintptr_t × (String → List (Instr σ ε)))) (torn : Bool) (w : σ)
    (inner : List (Micro σ ε)) (hinner : InnerOK T torn (h.map Prod.snd) c inner) :
    Inv progs ⟨T, torn, some t, w,
      setAt s.todo t (inner ++ Micro.unlock :: code.map Micro.run), s.history, false⟩ where
  raced := rfl
  free := fun h => by simp at h
  outside := fun t' hne => by
    have hne' : t' ≠ t := fun e => hne (by rw [e])
    obtain ⟨code', h1, h2⟩ := hs.outside t' (by rw [hm]; exact hne)
    exact ⟨code', by simp only [setAt_other _ _ _ _ hne', h1], h2⟩
  held := fun t' h' => by
    have ht : t' = t := (Option.some.inj h').symm
    subst ht
    exact ⟨inner, code, h, c, by simp only [setAt_same], hprogs, hhist, hinner⟩

theorem inv_release {progs : Nat → List (Instr σ ε)} {s : System σ ε} (hs : Inv progs s)
    (t : Nat) (hm : s.mutex_ = some t) (code : List (Instr σ ε)) (h : List (Nat × Instr σ ε))
    (c : Instr σ ε) (hprogs : progs t = callsOf t s.history ++ code)
    (hhist : s.history = h ++ [(t, c)]) (htorn : s.torn = false)
    (htable : s.delegates_ = oneAtATime (h.map Prod.snd ++ [c])) :
    Inv progs ⟨s.delegates_, s.torn, none, s.world, setAt s.todo t (code.map Micro.run),
      s.history, s.raced⟩ where
  raced := hs.raced
  free := fun _ => ⟨htorn, by simp only [htable, hhist, List.map_append, List.map_cons,
    List.map_nil]⟩
  outside := fun t' _ => by
    by_cases ht : t' = t
    · subst ht
      exact ⟨code, by simp only [setAt_same], hprogs⟩
    · obtain ⟨code', h1, h2⟩ := hs.outside t' (by rw [hm]; exact fun e => ht (Option.some.inj e).symm)
      exact ⟨code', by simp only [setAt_other _ _ _ _ ht, h1], h2⟩
  held := fun t' h' => by simp at h'

/-- A thread that does not own the mutex and whose code is member-function calls can only take
a step when the mutex is free. -/
theorem step_outside_of_held {progs : Nat → List (Instr σ ε)}
    (hcalls : ∀ t, ∀ i ∈ progs t, i.isCall = true) {s : System σ ε} (hs : Inv progs s)
    (t o : Nat) (hm : s.mutex_ = some o) (hne : t ≠ o) : step s t = s := by
  obtain ⟨code, htodo, hprogs⟩ := hs.outside t (by rw [hm]; exact fun e => hne (Option.some.inj e).symm)
  cases code with
  | nil => simp [step, htodo]
  | cons c code' =>
      have hc : c.isCall = true := hcalls t c (by rw [hprogs]; simp)
      cases c with
      | act f => simp [Instr.isCall] at hc
      | registerDelegate id d => simp [step, htodo, lockThen, hm]
      | unregisterDelegate id => simp [step, htodo, lockThen, hm]
      | emit id name => simp [step, htodo, lockThen, hm]

theorem inv_step {progs : Nat → List (Instr σ ε)}
    (hcalls : ∀ t, ∀ i ∈ progs t, i.isCall = true) {s : System σ ε} (hs : Inv progs s)
    (t : Nat) : Inv progs (step s t) := by
  cases hm : s.mutex_ with
  | none =>
      obtain ⟨code, htodo, hprogs⟩ := hs.outside t (by rw [hm]; simp)
      obtain ⟨htorn, htable⟩ := hs.free hm
      cases code with
      | nil =>
          have hstep : step s t = s := by simp [step, htodo]
          rw [hstep]
          exact hs
      | cons c code' =>
          have hc : c.isCall = true := hcalls t c (by rw [hprogs]; simp)
          cases c with
          | act f => simp [Instr.isCall] at hc
          | registerDelegate id d =>
              have hstep : step s t = ⟨s.delegates_, s.torn, some t, s.world,
                  setAt s.todo t ([Micro.insert_or_assign id d] ++
                    Micro.unlock :: code'.map Micro.run),
                  s.history ++ [(t, Instr.registerDelegate id d)], s.raced⟩ := by
                simp [step, htodo, lockThen, hm]
              rw [hstep]
              exact inv_lockThen hs hm t _ code' hprogs _ (InnerOK.ins id d htorn htable)
          | unregisterDelegate id =>
              have hstep : step s t = ⟨s.delegates_, s.torn, some t, s.world,
                  setAt s.todo t ([Micro.erase id] ++ Micro.unlock :: code'.map Micro.run),
                  s.history ++ [(t, Instr.unregisterDelegate id)], s.raced⟩ := by
                simp [step, htodo, lockThen, hm]
              rw [hstep]
              exact inv_lockThen hs hm t _ code' hprogs _ (InnerOK.del id htorn htable)
          | emit id name =>
              have hstep : step s t = ⟨s.delegates_, s.torn, some t, s.world,
                  setAt s.todo t ([Micro.find id name] ++ Micro.unlock :: code'.map Micro.run),
                  s.history ++ [(t, Instr.emit id name)], s.raced⟩ := by
                simp [step, htodo, lockThen, hm]
              rw [hstep]
              exact inv_lockThen hs hm t _ code' hprogs _ (InnerOK.look id name htorn htable)
  | some o =>
      by_cases hto : t = o
      · subst hto
        obtain ⟨inner, code, h, c, htodo, hprogs, hhist, hinner⟩ := hs.held t hm
        have hraced := hs.raced
        cases hinner with
        | ins id d htorn htable =>
            have hstep : step s t = ⟨s.delegates_, true, some t, s.world,
                setAt s.todo t ([Micro.commit (unordered_map.insert_or_assign s.delegates_ id d)]
                  ++ Micro.unlock :: code.map Micro.run), s.history, false⟩ := by
              simp [step, htodo, hm, hraced, htorn]
            rw [hstep]
            refine inv_owner hs t hm code h _ hprogs hhist _ _ _ _
              (InnerOK.com _ _ rfl htable ?_)
            rw [oneAtATime_append, htable]
            rfl
        | del id htorn htable =>
            have hstep : step s t = ⟨s.delegates_, true, some t, s.world,
                setAt s.todo t ([Micro.commit (unordered_map.erase s.delegates_ id)]
                  ++ Micro.unlock :: code.map Micro.run), s.history, false⟩ := by
              simp [step, htodo, hm, hraced, htorn]
            rw [hstep]
            refine inv_owner hs t hm code h _ hprogs hhist _ _ _ _
              (InnerOK.com _ _ rfl htable ?_)
            rw [oneAtATime_append, htable]
            rfl
        | com _ table htorn hold htable =>
            have hstep : step s t = ⟨table, false, some t, s.world,
                setAt s.todo t (([] : List (Instr σ ε)).map Micro.run
                  ++ Micro.unlock :: code.map Micro.run), s.history, false⟩ := by
              simp [step, htodo, hm, hraced]
            rw [hstep]
            exact inv_owner hs t hm code h _ hprogs hhist _ _ _ _
              (InnerOK.body _ [] rfl htable (Or.inl rfl))
        | look id name htorn htable =>
            have htable' : s.delegates_
                = oneAtATime (h.map Prod.snd ++ [Instr.emit id name]) := by
              rw [oneAtATime_append, htable]
              rfl
            cases hf : unordered_map.find s.delegates_ id with
            | none =>
                have hstep : step s t = ⟨s.delegates_, s.torn, some t, s.world,
                    setAt s.todo t (([] : List (Instr σ ε)).map Micro.run
                      ++ Micro.unlock :: code.map Micro.run), s.history, false⟩ := by
                  simp [step, htodo, hm, hraced, htorn, hf]
                rw [hstep]
                exact inv_owner hs t hm code h _ hprogs hhist _ _ _ _
                  (InnerOK.body _ [] htorn htable' (Or.inl rfl))
            | some d =>
                have hstep : step s t = ⟨s.delegates_, s.torn, some t, s.world,
                    setAt s.todo t ((d name).map Micro.run
                      ++ Micro.unlock :: code.map Micro.run), s.history, false⟩ := by
                  simp [step, htodo, hm, hraced, htorn, hf]
                rw [hstep]
                exact inv_owner hs t hm code h _ hprogs hhist _ _ _ _
                  (InnerOK.body _ (d name) htorn htable'
                    (Or.inr ⟨id, name, d, rfl, hf, List.suffix_refl _⟩))
        | body _ b htorn htable hcur =>
            cases b with
            | nil =>
                have hstep : step s t = ⟨s.delegates_, s.torn, none, s.world,
                    setAt s.todo t (code.map Micro.run), s.history, s.raced⟩ := by
                  simp [step, htodo]
                rw [hstep]
                exact inv_release hs t hm code h c hprogs hhist htorn htable
            | cons i b' =>
                have hcur' : b' = [] ∨ ∃ id name d, c = Instr.emit id name ∧
                    unordered_map.find s.delegates_ id = some d ∧
                    List.IsSuffix b' (d name) := by
                  rcases hcur with hnil | ⟨id, name, d, hc, hf, hsuf⟩
                  · cases hnil
                  · exact Or.inr ⟨id, name, d, hc, hf,
                      List.IsSuffix.trans (List.suffix_cons i b') hsuf⟩
                cases i with
                | act f =>
                    rcases hfw : f s.world with ⟨st, w⟩
                    cases st with
                    | ok u =>
                        have hstep : step s t = ⟨s.delegates_, s.torn, some t, w,
                            setAt s.todo t (b'.map Micro.run
                              ++ Micro.unlock :: code.map Micro.run), s.history, false⟩ := by
                          simp [step, htodo, hm, hraced, hfw]
                        rw [hstep]
                        exact inv_owner hs t hm code h _ hprogs hhist _ _ _ _
                          (InnerOK.body _ b' htorn htable hcur')
                    | error e =>
                        have hstep : step s t = ⟨s.delegates_, s.torn, some t, w,
                            setAt s.todo t (([] : List (Instr σ ε)).map Micro.run
                              ++ Micro.unlock :: code.map Micro.run), s.history, false⟩ := by
                          simp [step, htodo, hm, hraced, hfw, unwind_body]
                        rw [hstep]
                        exact inv_owner hs t hm code h _ hprogs hhist _ _ _ _
                          (InnerOK.body _ [] htorn htable (Or.inl rfl))
                | registerDelegate id d =>
                    have hstep : step s t = s := by simp [step, htodo, lockThen, hm]
                    rw [hstep]
                    exact hs
                | unregisterDelegate id =>
                    have hstep : step s t = s := by simp [step, htodo, lockThen, hm]
                    rw [hstep]
                    exact hs
                | emit id name =>
                    have hstep : step s t = s := by simp [step, htodo, lockThen, hm]
                    rw [hstep]
                    exact hs
      · rw [step_outside_of_held hcalls hs t o hm hto]
        exact hs

theorem inv_runSched {progs : Nat → List (Instr σ ε)}
    (hcalls : ∀ t, ∀ i ∈ progs t, i.isCall = true) (sched : List Nat) {s : System σ ε}
    (hs : Inv progs s) : Inv progs (runSched s sched) := by
  induction sched generalizing s with
  | nil => exact hs
  | cons t rest ih => exact ih (inv_step hcalls hs t)

theorem inv_reached {progs : Nat → List (Instr σ ε)}
    (hcalls : ∀ t, ∀ i ∈ progs t, i.isCall = true) (w : σ) (sched : List Nat) :
    Inv progs (reached progs w sched) :=
  inv_runSched hcalls sched (inv_init progs w)

theorem find_onTable_of_not_mentions (i : uintptr_t) (x : Instr σ ε)
    (hx : x.mentions i = false) (T : List (uintptr_t × (String → List (Instr σ ε)))) :
    unordered_map.find (x.onTable T) i = unordered_map.find T i := by
  cases x with
  | act f => rfl
  | registerDelegate id d =>
      have hne : id ≠ i := by simpa [Instr.mentions] using hx
      exact unordered_map.find_insert_or_assign_other T id i d hne
  | unregisterDelegate id =>
      have hne : id ≠ i := by simpa [Instr.mentions] using hx
      exact unordered_map.find_erase_other T id i hne
  | emit id name => rfl

theorem find_foldl_of_not_mentions (i : uintptr_t) (post : List (Instr σ ε))
    (hpost : ∀ x ∈ post, x.mentions i = false)
    (T : List (uintptr_t × (String → List (Instr σ ε)))) :
    unordered_map.find (post.foldl (fun T c => c.onTable T) T) i = unordered_map.find T i := by
  induction post generalizing T with
  | nil => rfl
  | cons x post ih =>
      have hx := hpost x (List.mem_cons_self _ _)
      have hrest : ∀ y ∈ post, y.mentions i = false :=
        fun y hy => hpost y (List.mem_cons_of_mem _ hy)
      simp only [List.foldl_cons]
      rw [ih hrest, find_onTable_of_not_mentions i x hx]

/-- In a sequence of calls applied one at a time, the last call that mentions `i` decides what
the table holds for `i`. -/
theorem find_oneAtATime_last (i : uintptr_t) (pre post : List (Instr σ ε)) (c : Instr σ ε)
    (hpost : ∀ x ∈ post, x.mentions i = false) :
    unordered_map.find (oneAtATime (pre ++ c :: post)) i
      = unordered_map.find (c.onTable (oneAtATime pre)) i := by
  simp only [oneAtATime, List.foldl_append, List.foldl_cons]
  exact find_foldl_of_not_mentions i post hpost _

theorem find_oneAtATime_none (i : uintptr_t) (cs : List (Instr σ ε))
    (hcs : ∀ x ∈ cs, x.mentions i = false) :
    unordered_map.find (oneAtATime cs) i = none := by
  simp only [oneAtATime]
  rw [find_foldl_of_not_mentions i cs hcs]
  rfl

theorem todo_step_other (s : System σ ε) (t t' : Nat) (hne : t ≠ t') :
    (step s t').todo t = s.todo t := by
  unfold step lockThen
  repeat' split
  all_goals simp [setAt, hne]

theorem todo_runSched_of_nil (sched : List Nat) (s : System σ ε) (t : Nat)
    (hnil : s.todo t = []) : (runSched s sched).todo t = [] := by
  induction sched generalizing s with
  | nil => exact hnil
  | cons t' rest ih =>
      apply ih
      by_cases ht : t = t'
      · subst ht
        have hstep : step s t = s := by simp [step, hnil]
        rw [hstep]
        exact hnil
      · rw [todo_step_other s t t' ht]
        exact hnil

/-- Without a lock guard around them, two container writes that overlap lose an update and a
lookup meets a half-written table: the mutual exclusion proved below comes from the mutex. -/
theorem unguarded_access_races :
    (runSched unguardedWriters [0, 1, 0, 1, 1]).raced = true ∧
    unordered_map.find (runSched unguardedWriters [0, 1, 0, 1, 1]).delegates_ 1 = none ∧
    (runSched unguardedWriters [0, 1, 0, 1, 1]).todo 0 = [] ∧
    (runSched unguardedWriters [0, 1, 0, 1, 1]).todo 1 = [] ∧
    (runSched unguardedWriters [0, 1, 1]).raced = true :=
  ⟨rfl, rfl, rfl, rfl, rfl⟩

/-- What `Instr.onTable` says a call does to the table is what the call does when run alone on
a free mutex. -/
theorem exec_call_onTable (m : Machine σ ε) (hfree : m.mutex_ = false) (id : uintptr_t)
    (d : String → List (Instr σ ε)) (n : Nat) :
    exec (n + 1) m [Instr.registerDelegate id d]
      = Result.returned ⟨(Instr.registerDelegate id d).onTable m.delegates_, false, m.world⟩ ∧
    exec (n + 1) m [Instr.unregisterDelegate id]
      = Result.returned
          ⟨(Instr.unregisterDelegate id : Instr σ ε).onTable m.delegates_, false, m.world⟩ := by
  constructor
  · simp [exec, Machine.registerDelegate, lock_guard, hfree, unlock, Instr.onTable]
  · simp [exec, Machine.unregisterDelegate, lock_guard, hfree, unlock, Instr.onTable]

theorem twoThreads_calls : ∀ t, ∀ i ∈ twoThreads t, i.isCall = true := by
  intro t i hi
  by_cases h0 : t = 0
  · subst h0
    simp only [twoThreads, if_true, List.mem_cons, List.mem_singleton] at hi
    rcases hi with rfl | rfl | hi
    · rfl
    · rfl
    · simp at hi
  · by_cases h1 : t = 1
    · subst h1
      simp only [twoThreads, List.mem_cons] at hi
      simp at hi
      rcases hi with rfl | rfl <;> rfl
    · simp [twoThreads, h0, h1] at hi

end ConcFacts

/-- The two example handlers differ: called on the empty log, one throws and the other
returns. -/
theorem throwName_ne_appendToLog :
    throwName ≠ (appendToLog : Delegate (List String) String) := by
  intro heq
  have h1 := congrFun (congrFun heq "x") []
  simp [throwName, appendToLog] at h1

/-! ## The contract -/

section Contract

variable {σ ε : Type}

/-- C1, register-then-emit delivers: for every registry state `sm`, identifier `i`, handler `h`
and text `name`, the call `emit(i, name)` made after `registerDelegate(i, h)` performs exactly
one handler invocation, that of `h` with argument `name`, and nothing else: its result and its
effect on the outside state are those of the single call `h name`. -/
theorem register_then_emit_delivers (sm : SignalManager σ ε) (i : uintptr_t)
    (h : Delegate σ ε) (name : String) (w : σ) :
    ((sm.registerDelegate i h).emit i name w).invoked = [(h, name)] ∧
    ((sm.registerDelegate i h).emit i name w).status = (h name w).1 ∧
    ((sm.registerDelegate i h).emit i name w).world = (h name w).2 := by
  have hf := unordered_map.find_insert_or_assign_same sm.delegates_ i h
  have he := SignalManager.emit_of_find_some (sm.registerDelegate i h) i name w h hf
  rw [he]
  exact ⟨rfl, rfl, rfl⟩

/-- C2, unregister stops delivery: for every registry state `sm`, identifier `i`, handler `h`
and `name`, after `registerDelegate(i, h)` followed by `unregisterDelegate(i)` the call
`emit(i, name)` invokes no handler at all (so it does not invoke `h`); it returns normally and
leaves the outside state as it was. -/
theorem unregister_stops_delivery (sm : SignalManager σ ε) (i : uintptr_t)
    (h : Delegate σ ε) (name : String) (w : σ) :
    (((sm.registerDelegate i h).unregisterDelegate i).emit i name w).invoked = [] ∧
    (∀ n, (h, n) ∉ (((sm.registerDelegate i h).unregisterDelegate i).emit i name w).invoked) ∧
    (((sm.registerDelegate i h).unregisterDelegate i).emit i name w).status = Except.ok () ∧
    (((sm.registerDelegate i h).unregisterDelegate i).emit i name w).world = w := by
  have hf := unordered_map.find_erase_same (sm.registerDelegate i h).delegates_ i
  have he := SignalManager.emit_of_find_none
    ((sm.registerDelegate i h).unregisterDelegate i) i name w hf
  rw [he]
  exact ⟨rfl, fun n hn => by simp at hn, rfl, rfl⟩

/-- C3, replace semantics: for every registry state `sm`, identifier `i`, handlers `h1`, `h2`
and `name`, after `registerDelegate(i, h1)` then `registerDelegate(i, h2)` the call
`emit(i, name)` performs exactly one handler invocation, that of `h2` with `name`, with the
effect of `h2` alone; `h1`, when it is a handler other than `h2`, is not invoked with any
argument. The lookup for `i` yields `h2`, and in a table without duplicate keys the entry
`(i, h2)` is the only entry stored under `i`. -/
theorem replace_semantics (sm : SignalManager σ ε) (i : uintptr_t)
    (h1 h2 : Delegate σ ε) (name : String) (w : σ) :
    (((sm.registerDelegate i h1).registerDelegate i h2).emit i name w).invoked = [(h2, name)] ∧
    (((sm.registerDelegate i h1).registerDelegate i h2).emit i name w).status = (h2 name w).1 ∧
    (((sm.registerDelegate i h1).registerDelegate i h2).emit i name w).world = (h2 name w).2 ∧
    (h1 ≠ h2 → ∀ n,
      (h1, n) ∉ (((sm.registerDelegate i h1).registerDelegate i h2).emit i name w).invoked) ∧
    unordered_map.find ((sm.registerDelegate i h1).registerDelegate i h2).delegates_ i
      = some h2 ∧
    (sm.WF → ∀ d,
      (i, d) ∈ ((sm.registerDelegate i h1).registerDelegate i h2).delegates_ ↔ d = h2) := by
  have hf := unordered_map.find_insert_or_assign_same (sm.registerDelegate i h1).delegates_ i h2
  have he := SignalManager.emit_of_find_some
    ((sm.registerDelegate i h1).registerDelegate i h2) i name w h2 hf
  rw [he]
  refine ⟨rfl, rfl, rfl, ?_, hf, ?_⟩
  · intro hne n hn
    simp only [List.mem_singleton, Prod.mk.injEq] at hn
    exact hne hn.1
  · intro hwf d
    have hnd : (unordered_map.keys
        ((sm.registerDelegate i h1).registerDelegate i h2).delegates_).Nodup :=
      unordered_map.nodup_keys_insert_or_assign _ i h2
        (unordered_map.nodup_keys_insert_or_assign _ i h1 hwf)
    constructor
    · intro hmem
      have hd := unordered_map.find_eq_some_of_mem _ i d hnd hmem
      exact Option.some.inj (hd.symm.trans hf)
    · intro hd
      subst hd
      exact unordered_map.mem_of_find_eq_some _ i d hf

/-- A concrete instance of C3 in which both side conditions hold: two different handlers and
a duplicate-free table that already holds an entry for identifier 42. -/
theorem replace_semantics_witness :
    (throwName ≠ (appendToLog : Delegate (List String) String)) ∧
    (SignalManager.mk [(7, throwName), (42, throwName)]).WF ∧
    ((throwName, "ready") ∉
      ((((SignalManager.mk [(7, throwName), (42, throwName)]).registerDelegate 42
        throwName).registerDelegate 42 appendToLog).emit 42 "ready" []).invoked) ∧
    ((42, appendToLog) ∈ (((SignalManager.mk [(7, throwName), (42, throwName)]).registerDelegate
        42 throwName).registerDelegate 42 appendToLog).delegates_) :=
  ⟨throwName_ne_appendToLog,
   by simp [SignalManager.WF, unordered_map.keys],
   (replace_semantics (SignalManager.mk [(7, throwName), (42, throwName)]) 42
      throwName appendToLog "ready" []).2.2.2.1 throwName_ne_appendToLog "ready",
   ((replace_semantics (SignalManager.mk [(7, throwName), (42, throwName)]) 42
      throwName appendToLog "ready" []).2.2.2.2.2
        (by simp [SignalManager.WF, unordered_map.keys]) appendToLog).mpr rfl⟩

/-- C4, ordering over histories: run any finite sequence `cs` of `registerDelegate` and
`unregisterDelegate` calls from the initial (empty) registry (`emit` calls may be interleaved as
well; they never count as a mention). A following `emit(i, name)` invokes
exactly the handler `h` of the last call mentioning `i` when that call is
`registerDelegate(i, h)`, and nothing otherwise; so it invokes `h` if and only if the last call
mentioning `i` is `registerDelegate(i, h)`, and it invokes nothing when no call mentions `i` or
the last one that does is `unregisterDelegate(i)`. Invoking means running: in the first case the
result of `emit` and the outside state it leaves are those of the call `h name`, in the other
cases `emit` returns normally and the outside state is untouched. -/
theorem emit_follows_last_mention (cs : List (Call σ ε)) (i : uintptr_t) (name : String)
    (w0 w : σ) :
    ((((Process.start w0).run cs).manager.emit i name w).invoked =
      match lastMention i cs with
      | some (Call.registerDelegate _ h) => [(h, name)]
      | _ => []) ∧
    (∀ h, (h, name) ∈ (((Process.start w0).run cs).manager.emit i name w).invoked ↔
      lastMention i cs = some (Call.registerDelegate i h)) ∧
    ((lastMention i cs = none ∨ lastMention i cs = some (Call.unregisterDelegate i)) →
      (((Process.start w0).run cs).manager.emit i name w).invoked = [] ∧
      (((Process.start w0).run cs).manager.emit i name w).status = Except.ok () ∧
      (((Process.start w0).run cs).manager.emit i name w).world = w) ∧
    (∀ h, lastMention i cs = some (Call.registerDelegate i h) →
      (((Process.start w0).run cs).manager.emit i name w).status = (h name w).1 ∧
      (((Process.start w0).run cs).manager.emit i name w).world = (h name w).2) ∧
    ((((Process.start w0).run cs).manager.emit i name w).status =
      match lastMention i cs with
      | some (Call.registerDelegate _ h) => (h name w).1
      | _ => Except.ok ()) ∧
    ((((Process.start w0).run cs).manager.emit i name w).world =
      match lastMention i cs with
      | some (Call.registerDelegate _ h) => (h name w).2
      | _ => w) := by
  have hfind := find_run i cs (Process.start w0)
  have hstart : unordered_map.find (Process.start w0 : Process σ ε).manager.delegates_ i
      = none := rfl
  rw [hstart] at hfind
  cases hl : lastMention i cs with
  | none =>
      rw [hl] at hfind
      have he := SignalManager.emit_of_find_none _ i name w hfind
      rw [he]
      exact ⟨rfl, fun h => by simp, fun _ => ⟨rfl, rfl, rfl⟩, fun h hh => by simp at hh,
        rfl, rfl⟩
  | some c =>
      rw [hl] at hfind
      cases c with
      | registerDelegate id h =>
          have hid := lastMention_eq_register i id h cs hl
          subst hid
          have he := SignalManager.emit_of_find_some _ id name w h hfind
          rw [he]
          refine ⟨rfl, fun h' => ?_, fun hor => ?_, fun h' hh => ?_, rfl, rfl⟩
          · simp only [List.mem_singleton, Prod.mk.injEq, and_true, Option.some.injEq,
              Call.registerDelegate.injEq, true_and]
            exact eq_comm
          · rcases hor with h1 | h1
            · simp at h1
            · simp at h1
          · simp only [Option.some.injEq, Call.registerDelegate.injEq, true_and] at hh
            subst hh
            exact ⟨rfl, rfl⟩
      | unregisterDelegate id =>
          have he := SignalManager.emit_of_find_none _ i name w hfind
          rw [he]
          exact ⟨rfl, fun h => by simp, fun _ => ⟨rfl, rfl, rfl⟩, fun h hh => by simp at hh,
            rfl, rfl⟩
      | emit id n =>
          exact absurd hl (lastMention_ne_emit i id n cs)

/-- A concrete history for C4: register 42, register 7, unregister 42, register 42 again.
The last call mentioning 42 registers the logging handler, the last (only) call mentioning 7
registers the throwing one, and nothing mentions 5: `emit(5, ·)` leaves the log alone,
`emit(42, "ready")` logs "ready" and `emit(7, "ready")` throws. -/
theorem emit_follows_last_mention_witness :
    (lastMention 5 [Call.registerDelegate 42 throwName, Call.registerDelegate 7 throwName,
      Call.unregisterDelegate 42, Call.registerDelegate 42 appendToLog] = none ∨
     lastMention 5 [Call.registerDelegate 42 throwName, Call.registerDelegate 7 throwName,
      Call.unregisterDelegate 42, Call.registerDelegate 42 appendToLog]
        = some (Call.unregisterDelegate 5)) ∧
    ((((Process.start []).run [Call.registerDelegate 42 throwName,
      Call.registerDelegate 7 throwName, Call.unregisterDelegate 42,
      Call.registerDelegate 42 appendToLog]).manager.emit 5 "ready" []).world = []) ∧
    (lastMention 42 [Call.registerDelegate 42 throwName, Call.registerDelegate 7 throwName,
      Call.unregisterDelegate 42, Call.registerDelegate 42 appendToLog]
        = some (Call.registerDelegate 42 appendToLog)) ∧
    ((((Process.start []).run [Call.registerDelegate 42 throwName,
      Call.registerDelegate 7 throwName, Call.unregisterDelegate 42,
      Call.registerDelegate 42 appendToLog]).manager.emit 42 "ready" []).invoked
        = [(appendToLog, "ready")]) ∧
    ((((Process.start []).run [Call.registerDelegate 42 throwName,
      Call.registerDelegate 7 throwName, Call.unregisterDelegate 42,
      Call.registerDelegate 42 appendToLog]).manager.emit 42 "ready" []).world
        = ["ready"]) ∧
    ((((Process.start []).run [Call.registerDelegate 42 throwName,
      Call.registerDelegate 7 throwName, Call.unregisterDelegate 42,
      Call.registerDelegate 42 appendToLog]).manager.emit 7 "ready" []).status
        = Except.error "ready") :=
  ⟨Or.inl rfl,
   ((emit_follows_last_mention [Call.registerDelegate 42 throwName,
      Call.registerDelegate 7 throwName, Call.unregisterDelegate 42,
      Call.registerDelegate 42 appendToLog] 5 "ready" [] []).2.2.1 (Or.inl rfl)).2.2,
   rfl,
   (emit_follows_last_mention [Call.registerDelegate 42 throwName,
      Call.registerDelegate 7 throwName, Call.unregisterDelegate 42,
      Call.registerDelegate 42 appendToLog] 42 "ready" [] []).1,
   ((emit_follows_last_mention [Call.registerDelegate 42 throwName,
      Call.registerDelegate 7 throwName, Call.unregisterDelegate 42,
      Call.registerDelegate 42 appendToLog] 42 "ready" [] []).2.2.2.1 appendToLog rfl).2,
   ((emit_follows_last_mention [Call.registerDelegate 42 throwName,
      Call.registerDelegate 7 throwName, Call.unregisterDelegate 42,
      Call.registerDelegate 42 appendToLog] 7 "ready" [] []).2.2.2.1 throwName rfl).1⟩

/-- C5, emit to an unlistened identifier is a silent no-op: for every registry state `sm` and
every identifier `i` with no entry in the table, `emit(i, name)` returns normally, invokes no
handler, and leaves the table and the outside state unchanged; the same holds for the initial
empty registry and every identifier. -/
theorem emit_unlistened_is_silent (i : uintptr_t) (name : String) (w : σ) :
    (∀ sm : SignalManager σ ε, i ∉ unordered_map.keys sm.delegates_ →
      (sm.emit i name w).status = Except.ok () ∧ (sm.emit i name w).invoked = [] ∧
      (sm.emit i name w).manager = sm ∧ (sm.emit i name w).world = w) ∧
    ((SignalManager.initial : SignalManager σ ε).emit i name w).status = Except.ok () ∧
    ((SignalManager.initial : SignalManager σ ε).emit i name w).invoked = [] ∧
    ((SignalManager.initial : SignalManager σ ε).emit i name w).manager
      = SignalManager.initial ∧
    ((SignalManager.initial : SignalManager σ ε).emit i name w).world = w := by
  refine ⟨fun sm habs => ?_, rfl, rfl, rfl, rfl⟩
  have hf := (unordered_map.find_eq_none_iff sm.delegates_ i).mpr habs
  rw [SignalManager.emit_of_find_none sm i name w hf]
  exact ⟨rfl, rfl, rfl, rfl⟩

/-- A concrete instance of C5: identifier 42 has no entry in a table that holds one for 7. -/
theorem emit_unlistened_is_silent_witness :
    (42 ∉ unordered_map.keys (SignalManager.mk [(7, throwName)]).delegates_) ∧
    ((SignalManager.mk [(7, throwName)]).emit 42 "ready" ["log"]).status = Except.ok () ∧
    ((SignalManager.mk [(7, throwName)]).emit 42 "ready" ["log"]).invoked = [] ∧
    ((SignalManager.mk [(7, throwName)]).emit 42 "ready" ["log"]).manager
      = SignalManager.mk [(7, throwName)] ∧
    ((SignalManager.mk [(7, throwName)]).emit 42 "ready" ["log"]).world = ["log"] :=
  ⟨by simp [unordered_map.keys],
   (emit_unlistened_is_silent 42 "ready" ["log"]).1 (SignalManager.mk [(7, throwName)])
     (by simp [unordered_map.keys])⟩

/-- C6, unregister of an unknown identifier is a no-op: for every registry state `sm`,
`unregisterDelegate(i)` returns normally, invokes no handler and leaves the outside state
alone; when `i` has no entry the table is left exactly as it was; in every case no entry for
`i` remains afterwards and the entries stored under other identifiers are exactly those that
were there before (so a present entry for `i`, and only it, is removed). -/
theorem unregister_unknown_is_noop (sm : SignalManager σ ε) (i : uintptr_t) (w : σ) :
    (perform sm w (Call.unregisterDelegate i)).status = Except.ok () ∧
    (perform sm w (Call.unregisterDelegate i)).invoked = [] ∧
    (perform sm w (Call.unregisterDelegate i)).world = w ∧
    (perform sm w (Call.unregisterDelegate i)).manager = sm.unregisterDelegate i ∧
    (i ∉ unordered_map.keys sm.delegates_ → sm.unregisterDelegate i = sm) ∧
    i ∉ unordered_map.keys (sm.unregisterDelegate i).delegates_ ∧
    (∀ e, e ∈ (sm.unregisterDelegate i).delegates_ ↔ e ∈ sm.delegates_ ∧ e.1 ≠ i) := by
  refine ⟨rfl, rfl, rfl, rfl, fun habs => ?_, ?_, fun e => ?_⟩
  · have hf := (unordered_map.find_eq_none_iff sm.delegates_ i).mpr habs
    have he := unordered_map.erase_of_find_eq_none sm.delegates_ i hf
    cases sm
    simp only [SignalManager.unregisterDelegate] at he ⊢
    rw [he]
  · exact (unordered_map.find_eq_none_iff _ i).mp
      (unordered_map.find_erase_same sm.delegates_ i)
  · exact unordered_map.mem_erase_iff sm.delegates_ i e

/-- A concrete instance of C6: unregistering 42 from a table that only holds 7 changes
nothing. -/
theorem unregister_unknown_is_noop_witness :
    (42 ∉ unordered_map.keys (SignalManager.mk [(7, throwName)]).delegates_) ∧
    (SignalManager.mk [(7, throwName)]).unregisterDelegate 42
      = SignalManager.mk [(7, throwName)] :=
  ⟨by simp [unordered_map.keys],
   (unregister_unknown_is_noop (SignalManager.mk [(7, throwName)]) 42 ([] : List String)).2.2.2.2.1
     (by simp [unordered_map.keys])⟩

/-- C7, isolation across identifiers: for every registry state `sm`, identifiers `i1 ≠ i2`,
handlers `h1`, `h2` and `name`, after `registerDelegate(i1, h1)` and `registerDelegate(i2, h2)`
in either order, `emit(i1, name)` performs exactly one invocation, of `h1` with `name`, and
`emit(i2, name)` exactly one, of `h2` with `name`; the result of each `emit` and the outside
state it leaves are those of its own handler alone. Hence, the handlers being different ones,
`emit(i1, name)` never invokes `h2` and `emit(i2, name)` never invokes `h1`. Registering under
`i1` does not change the handler looked up for `i2`. -/
theorem isolation_across_identifiers (sm : SignalManager σ ε) (i1 i2 : uintptr_t)
    (h1 h2 : Delegate σ ε) (name : String) (w : σ) (hne : i1 ≠ i2) :
    (((sm.registerDelegate i1 h1).registerDelegate i2 h2).emit i1 name w).invoked
      = [(h1, name)] ∧
    (((sm.registerDelegate i1 h1).registerDelegate i2 h2).emit i2 name w).invoked
      = [(h2, name)] ∧
    (((sm.registerDelegate i2 h2).registerDelegate i1 h1).emit i1 name w).invoked
      = [(h1, name)] ∧
    (((sm.registerDelegate i2 h2).registerDelegate i1 h1).emit i2 name w).invoked
      = [(h2, name)] ∧
    (h1 ≠ h2 → ∀ n,
      (h2, n) ∉ (((sm.registerDelegate i1 h1).registerDelegate i2 h2).emit i1 name w).invoked ∧
      (h1, n) ∉ (((sm.registerDelegate i1 h1).registerDelegate i2 h2).emit i2 name w).invoked ∧
      (h2, n) ∉ (((sm.registerDelegate i2 h2).registerDelegate i1 h1).emit i1 name w).invoked ∧
      (h1, n) ∉ (((sm.registerDelegate i2 h2).registerDelegate i1 h1).emit i2 name w).invoked) ∧
    unordered_map.find (sm.registerDelegate i1 h1).delegates_ i2
      = unordered_map.find sm.delegates_ i2 ∧
    ((((sm.registerDelegate i1 h1).registerDelegate i2 h2).emit i1 name w).status
        = (h1 name w).1 ∧
      (((sm.registerDelegate i1 h1).registerDelegate i2 h2).emit i1 name w).world
        = (h1 name w).2) ∧
    ((((sm.registerDelegate i1 h1).registerDelegate i2 h2).emit i2 name w).status
        = (h2 name w).1 ∧
      (((sm.registerDelegate i1 h1).registerDelegate i2 h2).emit i2 name w).world
        = (h2 name w).2) ∧
    ((((sm.registerDelegate i2 h2).registerDelegate i1 h1).emit i1 name w).status
        = (h1 name w).1 ∧
      (((sm.registerDelegate i2 h2).registerDelegate i1 h1).emit i1 name w).world
        = (h1 name w).2) ∧
    ((((sm.registerDelegate i2 h2).registerDelegate i1 h1).emit i2 name w).status
        = (h2 name w).1 ∧
      (((sm.registerDelegate i2 h2).registerDelegate i1 h1).emit i2 name w).world
        = (h2 name w).2) := by
  have hne' : i2 ≠ i1 := fun h => hne h.symm
  have f11 : unordered_map.find ((sm.registerDelegate i1 h1).registerDelegate i2 h2).delegates_ i1
      = some h1 :=
    (unordered_map.find_insert_or_assign_other _ i2 i1 h2 hne').trans
      (unordered_map.find_insert_or_assign_same sm.delegates_ i1 h1)
  have f12 : unordered_map.find ((sm.registerDelegate i1 h1).registerDelegate i2 h2).delegates_ i2
      = some h2 :=
    unordered_map.find_insert_or_assign_same _ i2 h2
  have f21 : unordered_map.find ((sm.registerDelegate i2 h2).registerDelegate i1 h1).delegates_ i1
      = some h1 :=
    unordered_map.find_insert_or_assign_same _ i1 h1
  have f22 : unordered_map.find ((sm.registerDelegate i2 h2).registerDelegate i1 h1).delegates_ i2
      = some h2 :=
    (unordered_map.find_insert_or_assign_other _ i1 i2 h1 hne).trans
      (unordered_map.find_insert_or_assign_same sm.delegates_ i2 h2)
  rw [SignalManager.emit_of_find_some _ i1 name w h1 f11,
    SignalManager.emit_of_find_some _ i2 name w h2 f12,
    SignalManager.emit_of_find_some _ i1 name w h1 f21,
    SignalManager.emit_of_find_some _ i2 name w h2 f22]
  refine ⟨rfl, rfl, rfl, rfl, fun hh n => ?_,
    unordered_map.find_insert_or_assign_other sm.delegates_ i1 i2 h1 hne,
    ⟨rfl, rfl⟩, ⟨rfl, rfl⟩, ⟨rfl, rfl⟩, ⟨rfl, rfl⟩⟩
  have hh' : h2 ≠ h1 := fun h => hh h.symm
  simp only [List.mem_singleton, Prod.mk.injEq, not_and]
  exact ⟨fun h => absurd h hh', fun h => absurd h hh, fun h => absurd h hh',
    fun h => absurd h hh⟩

/-- A concrete instance of C7: identifiers 42 and 7, a logging and a throwing handler, on a
table that already holds an older entry for 7. `emit(42, "ready")` logs and returns,
`emit(7, "ready")` throws and logs nothing. -/
theorem isolation_across_identifiers_witness :
    ((42 : uintptr_t) ≠ 7) ∧
    ((appendToLog : Delegate (List String) String) ≠ throwName) ∧
    (((((SignalManager.mk [(7, appendToLog)]).registerDelegate 42 appendToLog).registerDelegate 7
      throwName).emit 42 "ready" []).invoked = [(appendToLog, "ready")]) ∧
    (((((SignalManager.mk [(7, appendToLog)]).registerDelegate 42 appendToLog).registerDelegate 7
      throwName).emit 7 "ready" []).invoked = [(throwName, "ready")]) ∧
    ((throwName, "ready") ∉ ((((SignalManager.mk [(7, appendToLog)]).registerDelegate 42
      appendToLog).registerDelegate 7 throwName).emit 42 "ready" []).invoked) ∧
    (((((SignalManager.mk [(7, appendToLog)]).registerDelegate 42 appendToLog).registerDelegate 7
      throwName).emit 42 "ready" []).world = ["ready"]) ∧
    (((((SignalManager.mk [(7, appendToLog)]).registerDelegate 42 appendToLog).registerDelegate 7
      throwName).emit 7 "ready" []).status = Except.error "ready") ∧
    (((((SignalManager.mk [(7, appendToLog)]).registerDelegate 42 appendToLog).registerDelegate 7
      throwName).emit 7 "ready" []).world = []) :=
  ⟨by decide,
   fun h => throwName_ne_appendToLog h.symm,
   (isolation_across_identifiers (SignalManager.mk [(7, appendToLog)]) 42 7 appendToLog
      throwName "ready" [] (by decide)).1,
   (isolation_across_identifiers (SignalManager.mk [(7, appendToLog)]) 42 7 appendToLog
      throwName "ready" [] (by decide)).2.1,
   ((isolation_across_identifiers (SignalManager.mk [(7, appendToLog)]) 42 7 appendToLog
      throwName "ready" [] (by decide)).2.2.2.2.1
        (fun h => throwName_ne_appendToLog h.symm) "ready").1,
   (isolation_across_identifiers (SignalManager.mk [(7, appendToLog)]) 42 7 appendToLog
      throwName "ready" [] (by decide)).2.2.2.2.2.2.1.2,
   (isolation_across_identifiers (SignalManager.mk [(7, appendToLog)]) 42 7 appendToLog
      throwName "ready" [] (by decide)).2.2.2.2.2.2.2.1.1,
   (isolation_across_identifiers (SignalManager.mk [(7, appendToLog)]) 42 7 appendToLog
      throwName "ready" [] (by decide)).2.2.2.2.2.2.2.1.2⟩

/-- C8, table invariant: in every state reached from the initial empty registry by any
sequence of `registerDelegate`, `unregisterDelegate` and `emit` calls, no key is stored twice,
each identifier present in the table is associated with exactly one handler, and a single
`emit` call invokes at most one handler. -/
theorem table_invariant (cs : List (Call σ ε)) (w0 : σ) :
    (unordered_map.keys ((Process.start w0).run cs).manager.delegates_).Nodup ∧
    (∀ id ∈ unordered_map.keys ((Process.start w0).run cs).manager.delegates_,
      ∃! d, (id, d) ∈ ((Process.start w0).run cs).manager.delegates_) ∧
    (∀ id name w, (((Process.start w0).run cs).manager.emit id name w).invoked.length ≤ 1) := by
  have hwf : ((Process.start w0).run cs).manager.WF :=
    wf_run cs (Process.start w0) (by simp [Process.start, SignalManager.initial,
      SignalManager.WF, unordered_map.keys])
  refine ⟨hwf, fun id hid => ?_, fun id name w => ?_⟩
  · obtain ⟨e, he, hfst⟩ := List.mem_map.mp hid
    obtain ⟨k, d⟩ := e
    simp only at hfst
    subst hfst
    refine ⟨d, he, fun d' hd' => ?_⟩
    have h1 := unordered_map.find_eq_some_of_mem _ k d hwf he
    have h2 := unordered_map.find_eq_some_of_mem _ k d' hwf hd'
    exact Option.some.inj (h2.symm.trans h1)
  · simp only [SignalManager.emit]
    cases unordered_map.find ((Process.start w0).run cs).manager.delegates_ id <;> simp

/-- C9, end-to-end sequence: for every identifier `i` and name `n`, on any registry `sm`, with
`h` the handler that appends its argument to a log, running `registerDelegate(i, h)`;
`emit(i, n)` from an empty log leaves the log equal to `[n]`, and going on with
`unregisterDelegate(i)`; `emit(i, n)` leaves it still equal to `[n]`: `h` has been invoked once
in all. -/
theorem end_to_end_sequence (sm : SignalManager (List String) ε) (i : uintptr_t) (n : String) :
    ((Process.mk sm [] []).run
      [Call.registerDelegate i appendToLog, Call.emit i n]).world = [n] ∧
    ((Process.mk sm [] []).run
      [Call.registerDelegate i appendToLog, Call.emit i n,
       Call.unregisterDelegate i, Call.emit i n]).world = [n] ∧
    ((Process.mk sm [] []).run
      [Call.registerDelegate i appendToLog, Call.emit i n,
       Call.unregisterDelegate i, Call.emit i n]).invoked = [(appendToLog, n)] := by
  have hf1 := unordered_map.find_insert_or_assign_same sm.delegates_ i
    (appendToLog : Delegate (List String) ε)
  have hf2 := unordered_map.find_erase_same
    (unordered_map.insert_or_assign sm.delegates_ i (appendToLog : Delegate (List String) ε)) i
  simp [Process.run, Process.call, perform, SignalManager.emit,
    SignalManager.registerDelegate, SignalManager.unregisterDelegate, hf1, hf2, appendToLog]

/-- The instance of C9 named in the specification: identifier 42 and name "ready", starting
from the initial registry. -/
theorem end_to_end_sequence_witness :
    ((Process.start []).run
      [Call.registerDelegate 42 (appendToLog : Delegate (List String) String),
       Call.emit 42 "ready"]).world = ["ready"] ∧
    ((Process.start []).run
      [Call.registerDelegate 42 (appendToLog : Delegate (List String) String),
       Call.emit 42 "ready", Call.unregisterDelegate 42, Call.emit 42 "ready"]).world
        = ["ready"] :=
  ⟨(end_to_end_sequence SignalManager.initial 42 "ready").1,
   (end_to_end_sequence SignalManager.initial 42 "ready").2.1⟩

/-- C10, handler failure propagates: for every registry state `sm` in which the lookup for `i`
yields handler `h`, if `h` throws `e` when called with `name`, then `emit(i, name)` ends with
that same exception `e`: nothing is caught, wrapped or suppressed. The outside state is the one
`h` left behind and the table is unchanged. -/
theorem handler_failure_propagates (sm : SignalManager σ ε) (i : uintptr_t) (h : Delegate σ ε)
    (name : String) (w : σ) (e : ε)
    (hreg : unordered_map.find sm.delegates_ i = some h)
    (hthrow : (h name w).1 = Except.error e) :
    (sm.emit i name w).status = Except.error e ∧
    (sm.emit i name w).world = (h name w).2 ∧
    (sm.emit i name w).invoked = [(h, name)] ∧
    (sm.emit i name w).manager = sm := by
  rw [SignalManager.emit_of_find_some sm i name w h hreg]
  exact ⟨hthrow, rfl, rfl, rfl⟩

/-- A concrete instance of C10: the handler registered for 42 throws its argument. -/
theorem handler_failure_propagates_witness :
    unordered_map.find (SignalManager.mk [(7, appendToLog), (42, throwName)]).delegates_ 42
      = some throwName ∧
    (throwName "ready" ["log"]).1 = Except.error "ready" ∧
    ((SignalManager.mk [(7, appendToLog), (42, throwName)]).emit 42 "ready" ["log"]).status
      = Except.error "ready" :=
  ⟨rfl, rfl,
   (handler_failure_propagates (SignalManager.mk [(7, appendToLog), (42, throwName)]) 42
      throwName "ready" ["log"] "ready" rfl rfl).1⟩

/-- C11, no operation fails on its own. With the lock in view, on every machine `m` whose mutex
is free: `registerDelegate(i, d)` and `unregisterDelegate(i)` take the lock, update the table,
release the lock and return normally; `emit(i, name)` returns normally when no handler is
registered for `i`, and when one is registered and its body returns normally, `emit` returns
normally too, from the state the handler left, with the lock released. In the first model:
`registerDelegate` and `unregisterDelegate` yield the table with their update made, and
`emit(i, name)` returns normally whenever the handler registered for `i`, if there is one,
returns normally when called with `name`. -/
theorem no_operation_fails_on_its_own (sm : SignalManager σ ε) (m : Machine σ ε)
    (i : uintptr_t) (h : Delegate σ ε) (d : String → List (Instr σ ε)) (name : String) (w : σ) :
    (m.mutex_ = false →
      m.registerDelegate i d
        = Result.returned ⟨unordered_map.insert_or_assign m.delegates_ i d, false, m.world⟩ ∧
      m.unregisterDelegate i
        = Result.returned ⟨unordered_map.erase m.delegates_ i, false, m.world⟩ ∧
      (∀ n, exec (n + 1) m [Instr.registerDelegate i d]
        = Result.returned ⟨unordered_map.insert_or_assign m.delegates_ i d, false, m.world⟩) ∧
      (∀ n, exec (n + 1) m [Instr.unregisterDelegate i]
        = Result.returned ⟨unordered_map.erase m.delegates_ i, false, m.world⟩) ∧
      (unordered_map.find m.delegates_ i = none →
        ∀ n, exec (n + 1) m [Instr.emit i name]
          = Result.returned ⟨m.delegates_, false, m.world⟩) ∧
      (∀ b n m2, unordered_map.find m.delegates_ i = some b →
        exec n ⟨m.delegates_, true, m.world⟩ (b name) = Result.returned m2 →
        exec (n + 1) m [Instr.emit i name]
          = Result.returned ⟨m2.delegates_, false, m2.world⟩)) ∧
    unordered_map.find (sm.registerDelegate i h).delegates_ i = some h ∧
    unordered_map.find (sm.unregisterDelegate i).delegates_ i = none ∧
    ((∀ d', unordered_map.find sm.delegates_ i = some d' → (d' name w).1 = Except.ok ()) →
      (sm.emit i name w).status = Except.ok () ∧
      (perform sm w (Call.emit i name)).status = Except.ok ()) := by
  refine ⟨fun hfree => ⟨?_, ?_, fun n => ?_, fun n => ?_, fun hnone n => ?_,
      fun b n m2 hsome hbody => ?_⟩,
    unordered_map.find_insert_or_assign_same sm.delegates_ i h,
    unordered_map.find_erase_same sm.delegates_ i, fun hok => ?_⟩
  · simp [Machine.registerDelegate, lock_guard, hfree, unlock]
  · simp [Machine.unregisterDelegate, lock_guard, hfree, unlock]
  · simp [exec, Machine.registerDelegate, lock_guard, hfree, unlock]
  · simp [exec, Machine.unregisterDelegate, lock_guard, hfree, unlock]
  · simp only [exec, Machine.emit_of_free_none _ m i name hfree hnone]
  · have hemit := Machine.emit_of_free_some (exec n) m i name b hfree hsome
    rw [hbody] at hemit
    simp only [exec, hemit, unlock]
  · cases hf : unordered_map.find sm.delegates_ i with
    | none =>
        simp only [perform]
        rw [SignalManager.emit_of_find_none sm i name w hf]
        exact ⟨rfl, rfl⟩
    | some d' =>
        simp only [perform]
        rw [SignalManager.emit_of_find_some sm i name w d' hf]
        exact ⟨hok d' hf, hok d' hf⟩

/-- A concrete instance of C11: the handler registered for 42 appends to the log and returns.
On a free mutex the lock-level `emit(42, "ready")` returns with the name logged and the lock
released, and `registerDelegate` returns with the new entry stored; in the first model
`emit(42, "ready")` returns normally although another identifier holds a throwing handler. -/
theorem no_operation_fails_on_its_own_witness :
    (Machine.mk [(42, logBody)] false []).mutex_ = false ∧
    unordered_map.find (Machine.mk [(42, logBody)] false []).delegates_ 42 = some logBody ∧
    exec 1 (Machine.mk [(42, logBody)] true []) (logBody "ready")
      = Result.returned (Machine.mk [(42, logBody)] true ["ready"]) ∧
    exec 2 (Machine.mk [(42, logBody)] false []) [Instr.emit 42 "ready"]
      = Result.returned (Machine.mk [(42, logBody)] false ["ready"]) ∧
    exec 1 (Machine.mk [(42, logBody)] false []) [Instr.registerDelegate 7 (unregisterSelf 7)]
      = Result.returned (Machine.mk [(42, logBody), (7, unregisterSelf 7)] false []) ∧
    (∀ d, unordered_map.find
        (SignalManager.mk [(7, throwName), (42, appendToLog)]).delegates_ 42 = some d →
      (d "ready" []).1 = Except.ok ()) ∧
    ((SignalManager.mk [(7, throwName), (42, appendToLog)]).emit 42 "ready" []).status
      = Except.ok () :=
  have hok : ∀ d, unordered_map.find
        (SignalManager.mk [(7, throwName), (42, appendToLog)]).delegates_ 42 = some d →
      (d "ready" []).1 = Except.ok () := by
    intro d hd
    have hfind : unordered_map.find
        (SignalManager.mk [(7, throwName), (42, appendToLog)]).delegates_ 42
          = some appendToLog := rfl
    rw [hfind] at hd
    cases hd
    rfl
  ⟨rfl, rfl, rfl,
   ((no_operation_fails_on_its_own (SignalManager.mk [(7, throwName), (42, appendToLog)])
      (Machine.mk [(42, logBody)] false []) 42 throwName (unregisterSelf 7) "ready" []).1
      rfl).2.2.2.2.2 logBody 1 (Machine.mk [(42, logBody)] true ["ready"]) rfl rfl,
   ((no_operation_fails_on_its_own (SignalManager.mk [(7, throwName), (42, appendToLog)])
      (Machine.mk [(42, logBody)] false []) 7 throwName (unregisterSelf 7) "ready" []).1
      rfl).2.2.1 0,
   hok,
   ((no_operation_fails_on_its_own (SignalManager.mk [(7, throwName), (42, appendToLog)])
      (Machine.mk [(42, logBody)] false []) 42 throwName (unregisterSelf 7) "ready"
      []).2.2.2 hok).1⟩

/-- C12, insertion order is irrelevant: for every registry state `sm`, identifiers `i1 ≠ i2`
and handlers `h1`, `h2`, registering `(i1, h1)` then `(i2, h2)` yields the same table as the
two calls in the opposite order: the lookup gives the same handler for every identifier and the
stored entries are the same up to storage order. Likewise `registerDelegate(i1, h1)` commutes
with `unregisterDelegate(i2)`, the two orders giving the very same table. -/
theorem insertion_order_irrelevant (sm : SignalManager σ ε) (i1 i2 : uintptr_t)
    (h1 h2 : Delegate σ ε) (hne : i1 ≠ i2) :
    (∀ j, unordered_map.find ((sm.registerDelegate i1 h1).registerDelegate i2 h2).delegates_ j
      = unordered_map.find ((sm.registerDelegate i2 h2).registerDelegate i1 h1).delegates_ j) ∧
    List.Perm ((sm.registerDelegate i1 h1).registerDelegate i2 h2).delegates_
      ((sm.registerDelegate i2 h2).registerDelegate i1 h1).delegates_ ∧
    (sm.registerDelegate i1 h1).unregisterDelegate i2
      = (sm.unregisterDelegate i2).registerDelegate i1 h1 := by
  have hne' : i2 ≠ i1 := fun h => hne h.symm
  refine ⟨fun j => ?_, unordered_map.insert_or_assign_comm_perm sm.delegates_ i1 i2 h1 h2 hne, ?_⟩
  · simp only [SignalManager.registerDelegate]
    by_cases hj1 : i1 = j
    · subst hj1
      rw [unordered_map.find_insert_or_assign_other _ i2 i1 h2 hne',
        unordered_map.find_insert_or_assign_same, unordered_map.find_insert_or_assign_same]
    · by_cases hj2 : i2 = j
      · subst hj2
        rw [unordered_map.find_insert_or_assign_same,
          unordered_map.find_insert_or_assign_other _ i1 i2 h1 hne,
          unordered_map.find_insert_or_assign_same]
      · rw [unordered_map.find_insert_or_assign_other _ i2 j h2 hj2,
          unordered_map.find_insert_or_assign_other _ i1 j h1 hj1,
          unordered_map.find_insert_or_assign_other _ i1 j h1 hj1,
          unordered_map.find_insert_or_assign_other _ i2 j h2 hj2]
  · simp only [SignalManager.registerDelegate, SignalManager.unregisterDelegate]
    rw [unordered_map.erase_insert_or_assign_comm sm.delegates_ i1 i2 h1 hne]

/-- A concrete instance of C12 on the empty table, identifiers 42 and 7: both orders look up
the same handler for 42, and registering 42 commutes with unregistering 7. -/
theorem insertion_order_irrelevant_witness :
    ((42 : uintptr_t) ≠ 7) ∧
    unordered_map.find (((SignalManager.initial : SignalManager (List String)
        String).registerDelegate 42 appendToLog).registerDelegate 7 throwName).delegates_ 42
      = unordered_map.find (((SignalManager.initial : SignalManager (List String)
        String).registerDelegate 7 throwName).registerDelegate 42 appendToLog).delegates_ 42 ∧
    ((SignalManager.initial : SignalManager (List String) String).registerDelegate 42
        appendToLog).unregisterDelegate 7
      = ((SignalManager.initial : SignalManager (List String) String).unregisterDelegate
        7).registerDelegate 42 appendToLog :=
  ⟨by decide,
   (insertion_order_irrelevant SignalManager.initial 42 7 appendToLog throwName
      (by decide)).1 42,
   (insertion_order_irrelevant SignalManager.initial 42 7 appendToLog throwName
      (by decide)).2.2⟩

/-- C16, unregister touches only its own identifier: for every registry state `sm` and
identifiers `i ≠ j`, the handler looked up for `j` (or its absence) is the same after
`unregisterDelegate(i)` as before, the entries stored under `j` are the same, and `emit(j, name)`
behaves identically before and after: same invocations, same result, same outside state. -/
theorem unregister_touches_only_its_identifier (sm : SignalManager σ ε) (i j : uintptr_t)
    (name : String) (w : σ) (hne : i ≠ j) :
    unordered_map.find (sm.unregisterDelegate i).delegates_ j
      = unordered_map.find sm.delegates_ j ∧
    (∀ d, (j, d) ∈ (sm.unregisterDelegate i).delegates_ ↔ (j, d) ∈ sm.delegates_) ∧
    ((sm.unregisterDelegate i).emit j name w).invoked = (sm.emit j name w).invoked ∧
    ((sm.unregisterDelegate i).emit j name w).status = (sm.emit j name w).status ∧
    ((sm.unregisterDelegate i).emit j name w).world = (sm.emit j name w).world := by
  have hf : unordered_map.find (sm.unregisterDelegate i).delegates_ j
      = unordered_map.find sm.delegates_ j :=
    unordered_map.find_erase_other sm.delegates_ i j hne
  refine ⟨hf, fun d => ?_, ?_⟩
  · have hmem := unordered_map.mem_erase_iff sm.delegates_ i (j, d)
    constructor
    · intro hin
      exact (hmem.mp hin).1
    · intro hin
      exact hmem.mpr ⟨hin, fun h => hne h.symm⟩
  · cases hfind : unordered_map.find sm.delegates_ j with
    | none =>
        rw [SignalManager.emit_of_find_none sm j name w hfind,
          SignalManager.emit_of_find_none _ j name w (hf.trans hfind)]
        exact ⟨rfl, rfl, rfl⟩
    | some d =>
        rw [SignalManager.emit_of_find_some sm j name w d hfind,
          SignalManager.emit_of_find_some _ j name w d (hf.trans hfind)]
        exact ⟨rfl, rfl, rfl⟩

/-- A concrete instance of C16: unregistering 7 leaves the logging handler of 42 in place. -/
theorem unregister_touches_only_its_identifier_witness :
    ((7 : uintptr_t) ≠ 42) ∧
    unordered_map.find ((SignalManager.mk [(7, throwName),
        (42, appendToLog)]).unregisterDelegate 7).delegates_ 42
      = unordered_map.find (SignalManager.mk [(7, throwName), (42, appendToLog)]).delegates_ 42 ∧
    (((SignalManager.mk [(7, throwName), (42, appendToLog)]).unregisterDelegate 7).emit 42
        "ready" []).world
      = ((SignalManager.mk [(7, throwName), (42, appendToLog)]).emit 42 "ready" []).world :=
  ⟨by decide,
   (unregister_touches_only_its_identifier (SignalManager.mk [(7, throwName), (42, appendToLog)])
      7 42 "ready" [] (by decide)).1,
   (unregister_touches_only_its_identifier (SignalManager.mk [(7, throwName), (42, appendToLog)])
      7 42 "ready" [] (by decide)).2.2.2.2⟩

/-- C17, round trip and idempotence: for every registry state `sm` in which identifier `i` is
absent and every handler `h`, `registerDelegate(i, h)` followed by `unregisterDelegate(i)`
restores the table exactly; and for every state, `unregisterDelegate(i)` applied twice yields
the same table as applying it once. -/
theorem register_unregister_round_trip (sm : SignalManager σ ε) (i : uintptr_t)
    (h : Delegate σ ε) :
    (i ∉ unordered_map.keys sm.delegates_ →
      (sm.registerDelegate i h).unregisterDelegate i = sm) ∧
    (sm.unregisterDelegate i).unregisterDelegate i = sm.unregisterDelegate i := by
  refine ⟨fun habs => ?_, ?_⟩
  · cases sm with
    | mk m =>
        simp only [SignalManager.registerDelegate, SignalManager.unregisterDelegate]
        rw [unordered_map.erase_insert_or_assign_same m i h habs]
  · simp only [SignalManager.unregisterDelegate]
    rw [unordered_map.erase_erase_same]

/-- A concrete instance of C17: 42 is absent from a table holding 7; registering and then
unregistering 42 gives that table back. -/
theorem register_unregister_round_trip_witness :
    (42 ∉ unordered_map.keys (SignalManager.mk [(7, throwName)]).delegates_) ∧
    ((SignalManager.mk [(7, throwName)]).registerDelegate 42 appendToLog).unregisterDelegate 42
      = SignalManager.mk [(7, throwName)] :=
  ⟨by simp [unordered_map.keys],
   (register_unregister_round_trip (SignalManager.mk [(7, throwName)]) 42 appendToLog).1
     (by simp [unordered_map.keys])⟩

/-- C15, emit does not modify the registry: for every registry state `sm`, identifier `i` and
`name`, the table after `emit(i, name)` is the table before it, whether or not `i` is
registered and whether or not the handler fails. The same holds with the lock in view: on a
machine `m` with a free mutex, if the handler registered for `i` (if any) does not call back
into the registry, `emit(i, name)` ends by a return or an exception for every large enough step
budget, with the table as it was and the mutex free again. -/
theorem emit_does_not_modify_registry (sm : SignalManager σ ε) (m : Machine σ ε)
    (i : uintptr_t) (name : String) (w : σ) :
    (sm.emit i name w).manager = sm ∧
    (perform sm w (Call.emit i name)).manager.delegates_ = sm.delegates_ ∧
    (m.mutex_ = false →
      (∀ d, unordered_map.find m.delegates_ i = some d → ∀ c ∈ d name, c.isCall = false) →
      ∃ N, ∀ n, N ≤ n → ∃ m',
        (exec n m [Instr.emit i name] = Result.returned m' ∨
          ∃ e, exec n m [Instr.emit i name] = Result.threw e m') ∧
        m'.delegates_ = m.delegates_ ∧ m'.mutex_ = false) := by
  have hseq : (sm.emit i name w).manager = sm := by
    simp only [SignalManager.emit]
    cases unordered_map.find sm.delegates_ i <;> rfl
  refine ⟨hseq, ?_, fun hfree hlocal => ?_⟩
  · simp only [perform]
    rw [hseq]
  · cases hfind : unordered_map.find m.delegates_ i with
    | none =>
        refine ⟨1, fun n hn => ?_⟩
        obtain ⟨k, rfl⟩ := Nat.exists_eq_add_of_le' hn
        refine ⟨⟨m.delegates_, false, m.world⟩, Or.inl ?_, rfl, rfl⟩
        simp only [exec, Machine.emit_of_free_none _ m i name hfree hfind]
    | some d =>
        refine ⟨(d name).length + 1, fun n hn => ?_⟩
        obtain ⟨k, rfl⟩ := Nat.exists_eq_add_of_le' hn
        have hfuel : k + ((d name).length + 1) = (k + (d name).length) + 1 := by
          simp [Nat.add_assoc]
        rw [hfuel]
        have hemit := Machine.emit_of_free_some (exec (k + (d name).length)) m i name d
          hfree hfind
        obtain ⟨m2, hm2, hd2, hmu2⟩ := exec_of_no_call (d name) (hlocal d hfind)
          ⟨m.delegates_, true, m.world⟩ k
        refine ⟨⟨m2.delegates_, false, m2.world⟩, ?_, hd2, rfl⟩
        rcases hm2 with hret | ⟨e, hthrow⟩
        · left
          rw [hret] at hemit
          simp only [exec, hemit, unlock]
        · right
          refine ⟨e, ?_⟩
          rw [hthrow] at hemit
          simp only [exec, hemit, unlock]

/-- A concrete instance of C15: the handler registered for 42 only appends to the log. On a
free mutex the lock-level `emit(42, "ready")` returns with the table unchanged, the mutex free
and the name logged. -/
theorem emit_does_not_modify_registry_witness :
    (Machine.mk [(42, logBody)] false []).mutex_ = false ∧
    (∀ d, unordered_map.find (Machine.mk [(42, logBody)] false []).delegates_ 42 = some d →
      ∀ c ∈ d "ready", c.isCall = false) ∧
    (∃ N, ∀ n, N ≤ n → ∃ m',
      (exec n (Machine.mk [(42, logBody)] false []) [Instr.emit 42 "ready"]
          = Result.returned m' ∨
        ∃ e, exec n (Machine.mk [(42, logBody)] false []) [Instr.emit 42 "ready"]
          = Result.threw e m') ∧
      m'.delegates_ = (Machine.mk [(42, logBody)] false []).delegates_ ∧ m'.mutex_ = false) ∧
    exec 3 (Machine.mk [(42, logBody)] false []) [Instr.emit 42 "ready"]
      = Result.returned (Machine.mk [(42, logBody)] false ["ready"]) :=
  have hlocal : ∀ d, unordered_map.find (Machine.mk [(42, logBody)] false []).delegates_ 42
      = some d → ∀ c ∈ d "ready", c.isCall = false := by
    intro d hd c hc
    have hfind : unordered_map.find (Machine.mk [(42, logBody)] false []).delegates_ 42
        = some logBody := rfl
    rw [hfind] at hd
    cases hd
    simp only [logBody, Delegate.toBody, List.mem_singleton] at hc
    rw [hc]
    rfl
  ⟨rfl, hlocal,
   (emit_does_not_modify_registry (SignalManager.initial : SignalManager (List String) String)
      (Machine.mk [(42, logBody)] false []) 42 "ready" []).2.2 rfl hlocal,
   rfl⟩

/-- C13, concurrent safety: threads `0, 1, 2, ...` each perform the calls of their program
`progs t` (`registerDelegate`, `unregisterDelegate`, `emit`), their steps interleaved by any
schedule. In every state reached:
* no container operation has met a half-written table (no race, nothing partially updated is
  seen by the lookup of `emit`);
* the history, the calls in the order in which their guards took the lock, holds each thread's
  calls in program order, each once: nothing lost, nothing duplicated;
* the table is the result of applying the calls of the history one at a time, the call in
  flight, if any, left out until its write is done;
* when no call is in flight the table is exactly that result, and for each identifier the entry
  is decided by the last call of the history that registers or unregisters it (none if there is
  no such call);
* when every thread has finished, the lock is free and the history is an interleaving of the
  whole programs. -/
theorem concurrent_safety (progs : Nat → List (Instr σ ε))
    (hcalls : ∀ t, ∀ i ∈ progs t, i.isCall = true) (w : σ) (sched : List Nat) :
    (reached progs w sched).raced = false ∧
    (∀ t, ∃ code, progs t = callsOf t (reached progs w sched).history ++ code) ∧
    ((reached progs w sched).delegates_
        = oneAtATime ((reached progs w sched).history.map Prod.snd) ∨
      ∃ h e, (reached progs w sched).history = h ++ [e] ∧
        (reached progs w sched).mutex_ = some e.1 ∧
        (reached progs w sched).delegates_ = oneAtATime (h.map Prod.snd)) ∧
    ((reached progs w sched).mutex_ = none →
      (reached progs w sched).torn = false ∧
      (reached progs w sched).delegates_
        = oneAtATime ((reached progs w sched).history.map Prod.snd) ∧
      (∀ i pre c post, (reached progs w sched).history.map Prod.snd = pre ++ c :: post →
        (∀ x ∈ post, x.mentions i = false) →
        (∀ d, c = Instr.registerDelegate i d →
          unordered_map.find (reached progs w sched).delegates_ i = some d) ∧
        (c = Instr.unregisterDelegate i →
          unordered_map.find (reached progs w sched).delegates_ i = none)) ∧
      (∀ i, (∀ x ∈ (reached progs w sched).history.map Prod.snd, x.mentions i = false) →
        unordered_map.find (reached progs w sched).delegates_ i = none)) ∧
    ((∀ t, (reached progs w sched).todo t = []) →
      (reached progs w sched).mutex_ = none ∧
      ∀ t, callsOf t (reached progs w sched).history = progs t) := by
  have hinv := inv_reached hcalls w sched
  refine ⟨hinv.raced, fun t => ?_, ?_, fun hm => ?_, fun hdone => ?_⟩
  · by_cases hm : (reached progs w sched).mutex_ = some t
    · obtain ⟨_, code, _, _, _, hp, _, _⟩ := hinv.held t hm
      exact ⟨code, hp⟩
    · obtain ⟨code, _, hp⟩ := hinv.outside t hm
      exact ⟨code, hp⟩
  · cases hm : (reached progs w sched).mutex_ with
    | none => exact Or.inl (hinv.free hm).2
    | some t =>
        obtain ⟨inner, code, h, c, _, _, hhist, hinner⟩ := hinv.held t hm
        cases hinner with
        | ins id d _ htable => exact Or.inr ⟨h, (t, _), hhist, rfl, htable⟩
        | del id _ htable => exact Or.inr ⟨h, (t, _), hhist, rfl, htable⟩
        | com _ table _ hold _ => exact Or.inr ⟨h, (t, _), hhist, rfl, hold⟩
        | look id name _ htable => exact Or.inr ⟨h, (t, _), hhist, rfl, htable⟩
        | body _ b _ htable _ =>
            left
            rw [htable, hhist]
            simp
  · obtain ⟨htorn, htable⟩ := hinv.free hm
    refine ⟨htorn, htable, fun i pre c post hsplit hpost => ?_, fun i hno => ?_⟩
    · have hfind := find_oneAtATime_last i pre post c hpost
      rw [← hsplit, ← htable] at hfind
      refine ⟨fun d hc => ?_, fun hc => ?_⟩
      · rw [hfind, hc]
        exact unordered_map.find_insert_or_assign_same _ i d
      · rw [hfind, hc]
        exact unordered_map.find_erase_same _ i
    · rw [htable]
      exact find_oneAtATime_none i _ hno
  · have hm : (reached progs w sched).mutex_ = none := by
      cases hmt : (reached progs w sched).mutex_ with
      | none => rfl
      | some t =>
          obtain ⟨inner, code, _, _, htodo, _, _, _⟩ := hinv.held t hmt
          rw [hdone t] at htodo
          simp at htodo
    refine ⟨hm, fun t => ?_⟩
    obtain ⟨code, htodo, hp⟩ := hinv.outside t (by rw [hm]; simp)
    rw [hdone t] at htodo
    have hcode : code = [] := by
      cases code with
      | nil => rfl
      | cons c code => simp at htodo
    rw [hp, hcode, List.append_nil]

/-- A concrete run for C13: the two threads of `twoThreads` under a schedule with contention
(a thread is scheduled while the other owns the lock) that runs both to the end. No race, the
lock free, thread 1's calls all in the history, and the table the one obtained by the four
calls one at a time in lock order; identifier 1, unregistered last, is absent. -/
theorem concurrent_safety_witness :
    (∀ t, ∀ i ∈ twoThreads t, i.isCall = true) ∧
    (∀ t, (reached twoThreads []
      [0, 1, 0, 0, 1, 0, 1, 0, 1, 1, 1, 0, 1, 0, 0, 0, 1, 1, 1, 1]).todo t = []) ∧
    (reached twoThreads []
      [0, 1, 0, 0, 1, 0, 1, 0, 1, 1, 1, 0, 1, 0, 0, 0, 1, 1, 1, 1]).mutex_ = none ∧
    (reached twoThreads []
      [0, 1, 0, 0, 1, 0, 1, 0, 1, 1, 1, 0, 1, 0, 0, 0, 1, 1, 1, 1]).raced = false ∧
    callsOf 1 (reached twoThreads []
      [0, 1, 0, 0, 1, 0, 1, 0, 1, 1, 1, 0, 1, 0, 0, 0, 1, 1, 1, 1]).history = twoThreads 1 ∧
    (reached twoThreads []
      [0, 1, 0, 0, 1, 0, 1, 0, 1, 1, 1, 0, 1, 0, 0, 0, 1, 1, 1, 1]).delegates_
      = oneAtATime [Instr.registerDelegate 1 logBody, Instr.registerDelegate 2 logBody,
          Instr.emit 1 "ready", Instr.unregisterDelegate 1] ∧
    unordered_map.find (reached twoThreads []
      [0, 1, 0, 0, 1, 0, 1, 0, 1, 1, 1, 0, 1, 0, 0, 0, 1, 1, 1, 1]).delegates_ 1 = none :=
  have hdone : ∀ t, (reached twoThreads []
      [0, 1, 0, 0, 1, 0, 1, 0, 1, 1, 1, 0, 1, 0, 0, 0, 1, 1, 1, 1]).todo t = [] := by
    intro t
    by_cases h0 : t = 0
    · subst h0
      rfl
    · by_cases h1 : t = 1
      · subst h1
        rfl
      · exact todo_runSched_of_nil _ _ t (by simp [System.init, twoThreads, h0, h1])
  ⟨twoThreads_calls, hdone, rfl,
   (concurrent_safety twoThreads twoThreads_calls []
      [0, 1, 0, 0, 1, 0, 1, 0, 1, 1, 1, 0, 1, 0, 0, 0, 1, 1, 1, 1]).1,
   ((concurrent_safety twoThreads twoThreads_calls []
      [0, 1, 0, 0, 1, 0, 1, 0, 1, 1, 1, 0, 1, 0, 0, 0, 1, 1, 1, 1]).2.2.2.2 hdone).2 1,
   ((concurrent_safety twoThreads twoThreads_calls []
      [0, 1, 0, 0, 1, 0, 1, 0, 1, 1, 1, 0, 1, 0, 0, 0, 1, 1, 1, 1]).2.2.2.1 rfl).2.1,
   (((concurrent_safety twoThreads twoThreads_calls []
      [0, 1, 0, 0, 1, 0, 1, 0, 1, 1, 1, 0, 1, 0, 0, 0, 1, 1, 1, 1]).2.2.2.1 rfl).2.2.1 1
      [Instr.registerDelegate 1 logBody, Instr.registerDelegate 2 logBody,
        Instr.emit 1 "ready"] (Instr.unregisterDelegate 1) [] rfl
      (fun x hx => by simp at hx)).2 rfl⟩

end Contract

end craby.reactnative.signals
